import Mathlib

/-!
Verification of the beammeup remote-execution engine against its
natural-language specification.

The Go sources are shallowly embedded: Go strings become `List Char`
(runes), Go maps become association lists with at most one entry per key,
and the stateful pieces (trust file, SOCKS5 connection handling) become
explicit state passing.  Each embedded definition carries a comment naming
the source function it was translated from.
-/

/-- Go strings, modelled as lists of runes (characters). -/
abbrev GoStr := List Char

/-- The single-quote character (U+0027), used by `shellJoin`. -/
def squoteChar : Char := Char.ofNat 39

/-- The double-quote character (U+0022), used by `shellJoin`. -/
def dquoteChar : Char := Char.ofNat 34

/-- Go `unicode.IsSpace`: ASCII whitespace plus the Latin-1 and Unicode
White_Space code points recognised by the Go standard library. -/
def goIsSpace (c : Char) : Bool :=
  let n := c.toNat
  n == 32 || (decide (9 ≤ n) && decide (n ≤ 13)) || n == 0x85 || n == 0xA0 ||
    n == 0x1680 || (decide (0x2000 ≤ n) && decide (n ≤ 0x200A)) || n == 0x2028 ||
    n == 0x2029 || n == 0x202F || n == 0x205F || n == 0x3000

/-- Go `strings.TrimSpace`, left half: drop leading whitespace. -/
def goTrimLeft (s : GoStr) : GoStr := s.dropWhile goIsSpace

/-- Go `strings.TrimSpace`, right half: drop trailing whitespace. -/
def goTrimRight (s : GoStr) : GoStr := (s.reverse.dropWhile goIsSpace).reverse

/-- Go `strings.TrimSpace`: trim whitespace from both ends. -/
def goTrimSpace (s : GoStr) : GoStr := goTrimRight (goTrimLeft s)

/-- Go `strings.HasPrefix pre s` (arguments: the prefix first). -/
def goStartsWith : GoStr → GoStr → Bool
  | [], _ => true
  | _ :: _, [] => false
  | p :: ps, c :: cs => p == c && goStartsWith ps cs

/-- Go `strings.Contains s sub`: `sub` occurs as a contiguous substring. -/
def goContains (s sub : GoStr) : Bool :=
  match s with
  | [] => sub.isEmpty
  | c :: t => goStartsWith sub (c :: t) || goContains t sub

/-- Go `strings.ReplaceAll s old new` for a one-rune `old` pattern, the only
form the sources use (`shellJoin` replaces `'`). -/
def goReplaceAllChar : GoStr → Char → GoStr → GoStr
  | [], _, _ => []
  | c :: t, old, new =>
    (if c = old then new else [c]) ++ goReplaceAllChar t old new

/-- Go `strings.ToLower`, restricted to ASCII case mapping (the sources only
compare against ASCII keywords, so the mapping of non-ASCII letters never
influences any embedded computation). -/
def goToLowerChar (c : Char) : Char :=
  if 65 ≤ c.toNat ∧ c.toNat ≤ 90 then Char.ofNat (c.toNat + 32) else c

/-- Go `strings.ToUpper`, restricted to ASCII case mapping. -/
def goToUpperChar (c : Char) : Char :=
  if 97 ≤ c.toNat ∧ c.toNat ≤ 122 then Char.ofNat (c.toNat - 32) else c

/-- Go `strings.ToLower` on a string. -/
def goToLower (s : GoStr) : GoStr := s.map goToLowerChar

/-- Go `strings.ToUpper` on a string. -/
def goToUpper (s : GoStr) : GoStr := s.map goToUpperChar

/-- `dropCR` from Go's `bufio.ScanLines`: drop one trailing carriage return. -/
def dropCR (l : GoStr) : GoStr :=
  if l.getLast? = some '\r' then l.dropLast else l

/-- Raw newline split underlying `bufio.ScanLines`: chunks between `'\n'`
bytes; the empty tail after a final newline yields no chunk, and an empty
input yields no chunk at all. -/
def splitNL : GoStr → List GoStr
  | [] => []
  | c :: t =>
    if c = '\n' then [] :: splitNL t
    else
      match splitNL t with
      | [] => [[c]]
      | l :: ls => (c :: l) :: ls

/-- The sequence of lines a `bufio.Scanner` with `ScanLines` yields:
newline-separated chunks, each with one trailing `'\r'` dropped. -/
def goLines (s : GoStr) : List GoStr := (splitNL s).map dropCR

/-- `KeyValues` from internal/remote/parser.go: a Go `map[string]string`,
embedded as an association list holding at most one entry per key. -/
abbrev KeyValues := List (GoStr × GoStr)

/-- Assignment `kv[k] = v` on a Go map: any previous binding of `k` is
replaced. -/
def kvSet (kv : KeyValues) (k v : GoStr) : KeyValues :=
  kv.filter (fun p => !(p.1 == k)) ++ [(k, v)]

/-- Presence lookup on a Go map: `some v` iff the key is bound to `v`. -/
def kvLookup (kv : KeyValues) (k : GoStr) : Option GoStr :=
  (kv.find? (fun p => p.1 == k)).map Prod.snd

/-- `KeyValues.Get` from internal/remote/parser.go: map indexing, returning
the zero value `""` for a missing key. -/
def kvGet (kv : KeyValues) (k : GoStr) : GoStr := (kvLookup kv k).getD []

/-- `KeyValues.Bool` from internal/remote/parser.go: true iff the value,
trimmed and lower-cased, is `1`, `true` or `yes`. -/
def kvBool (kv : KeyValues) (k : GoStr) : Bool :=
  let v := goTrimSpace (goToLower (kvGet kv k))
  v == "1".toList || v == "true".toList || v == "yes".toList

/-- One iteration of the scan loop in `ParseBM`
(internal/remote/parser.go): trim the line, require the `BM_` prefix and an
`=`, then store key/value split at the first `=`. -/
def parseBMStep (kv : KeyValues) (line : GoStr) : KeyValues :=
  let l := goTrimSpace line
  if goStartsWith ("BM_".toList) l then
    if l.contains '=' then
      kvSet kv (l.takeWhile (fun c => !(c == '=')))
        ((l.dropWhile (fun c => !(c == '='))).drop 1)
    else kv
  else kv

/-- `ParseBM` from internal/remote/parser.go: fold the scan loop over the
scanner's lines, starting from the empty map. -/
def ParseBM (out : GoStr) : KeyValues := (goLines out).foldl parseBMStep []

/-- Spec 4.1 / 8, phrased from the spec's words: the pair a single line
contributes, if any - after trimming leading/trailing whitespace the line
must begin with `BM_` and contain at least one `=`; the key is the
substring before the first `=` and the value the substring after it. -/
def specLineKV (line : GoStr) : Option (GoStr × GoStr) :=
  let l := goTrimSpace line
  if goStartsWith ("BM_".toList) l && l.contains '=' then
    some (l.takeWhile (fun c => !(c == '=')),
      (l.dropWhile (fun c => !(c == '='))).drop 1)
  else none

/-- Spec 4.1 / 8: the value the spec assigns to key `k` - the value of the
last line of `out` contributing `k` (duplicate keys resolve to the last
occurrence). -/
def specLastKV (out k : GoStr) : Option GoStr :=
  ((((goLines out).filterMap specLineKV).filter (fun p => p.1 == k)).getLast?).map
    Prod.snd

theorem kvLookup_set_self (kv : KeyValues) (k v : GoStr) :
    kvLookup (kvSet kv k v) k = some v := by
  unfold kvLookup kvSet
  rw [List.find?_append]
  have hnone : (kv.filter (fun p => !(p.1 == k))).find? (fun p => p.1 == k) = none := by
    rw [List.find?_eq_none]
    intro p hp
    have := List.of_mem_filter hp
    simpa using this
  rw [hnone]
  simp [List.find?]

theorem kvLookup_filter_ne (kv : KeyValues) (k k' : GoStr) (h : ¬ k' = k) :
    (kv.filter (fun p => !(p.1 == k))).find? (fun p => p.1 == k') =
      kv.find? (fun p => p.1 == k') := by
  induction kv with
  | nil => rfl
  | cons p t ih =>
    cases hb : (p.1 == k) with
    | true =>
      have hpk : p.1 = k := by simpa using hb
      have h2 : (p.1 == k') = false := by
        simp only [beq_eq_false_iff_ne, ne_eq]
        intro he; exact h (by rw [← he, hpk])
      simp only [List.filter_cons, hb, Bool.not_true, Bool.false_eq_true, if_false, ih,
        List.find?_cons, h2]
    | false =>
      simp only [List.filter_cons, hb, Bool.not_false, if_true, List.find?_cons]
      cases hb' : (p.1 == k') with
      | true => simp
      | false => simpa using ih

theorem kvLookup_set_ne (kv : KeyValues) (k v k' : GoStr) (h : ¬ k' = k) :
    kvLookup (kvSet kv k v) k' = kvLookup kv k' := by
  unfold kvLookup kvSet
  rw [List.find?_append, kvLookup_filter_ne kv k k' h]
  have h2 : ((k, v).1 == k') = false := by
    simp only [beq_eq_false_iff_ne, ne_eq]
    intro he; exact h he.symm
  cases hf : kv.find? (fun p => p.1 == k') with
  | none => simp [List.find?_cons, h2]
  | some p => simp

theorem getLast?_cons_or {α : Type} (a : α) (l : List α) :
    (a :: l).getLast? = l.getLast?.or (some a) := by
  cases l with
  | nil => rfl
  | cons b t =>
    rw [List.getLast?_cons_cons]
    have h : (b :: t).getLast?.isSome := by
      rw [List.getLast?_isSome]
      simp
    cases hv : (b :: t).getLast? with
    | none => rw [hv] at h; simp at h
    | some x => simp

theorem parseBMStep_spec (kv : KeyValues) (line : GoStr) :
    parseBMStep kv line =
      match specLineKV line with
      | some p => kvSet kv p.1 p.2
      | none => kv := by
  unfold parseBMStep specLineKV
  by_cases h1 : goStartsWith ("BM_".toList) (goTrimSpace line) = true
  · by_cases h2 : (goTrimSpace line).contains '=' = true
    · rw [if_pos h1, if_pos h2]
      have hc : (goStartsWith ("BM_".toList) (goTrimSpace line) &&
          (goTrimSpace line).contains '=') = true := by
        rw [h1, h2]; rfl
      rw [if_pos hc]
    · rw [if_pos h1, if_neg h2]
      have hc : ¬ (goStartsWith ("BM_".toList) (goTrimSpace line) &&
          (goTrimSpace line).contains '=') = true := by
        rw [h1]
        simpa using h2
      rw [if_neg hc]
  · rw [if_neg h1]
    have hc : ¬ (goStartsWith ("BM_".toList) (goTrimSpace line) &&
        (goTrimSpace line).contains '=') = true := by
      intro hand
      exact h1 (by
        have := Bool.and_eq_true_iff.mp hand
        exact this.1)
    rw [if_neg hc]

theorem foldl_parseBM_lookup (lines : List GoStr) (kv0 : KeyValues) (k : GoStr) :
    kvLookup (lines.foldl parseBMStep kv0) k =
      (((lines.filterMap specLineKV).filter (fun p => p.1 == k)).getLast?.map
        Prod.snd).or (kvLookup kv0 k) := by
  induction lines generalizing kv0 with
  | nil => simp
  | cons l ls ih =>
    rw [List.foldl_cons, parseBMStep_spec, List.filterMap_cons]
    cases hs : specLineKV l with
    | none => rw [ih kv0]
    | some p =>
      rw [ih (kvSet kv0 p.1 p.2), List.filter_cons]
      cases hb : (p.1 == k) with
      | true =>
        have hpk : p.1 = k := by simpa using hb
        rw [if_pos (by simp [hb]), getLast?_cons_or]
        have hmap :
            ((((ls.filterMap specLineKV).filter (fun p => p.1 == k)).getLast?).or
              (some p)).map Prod.snd =
            ((((ls.filterMap specLineKV).filter (fun p => p.1 == k)).getLast?).map
              Prod.snd).or (some p.2) := by
          cases ((ls.filterMap specLineKV).filter (fun p => p.1 == k)).getLast? <;> simp
        rw [hmap, Option.or_assoc]
        have hor : (Option.some p.2).or (kvLookup kv0 k) = some p.2 := rfl
        rw [hor, hpk, kvLookup_set_self]
      | false =>
        have hpk : ¬ k = p.1 := by
          intro he
          rw [← he] at hb
          simp at hb
        rw [if_neg (by simp [hb]), kvLookup_set_ne kv0 p.1 p.2 k hpk]

/-- Claim C2: for every input string, `ParseBM` maps key `k` to value `v`
iff the last line of the input which (after trimming whitespace) begins
with `BM_`, contains an `=`, and has `k` before its first `=`, has `v`
after that `=` - i.e. lines contribute pairs exactly as the spec states,
with later lines overwriting earlier ones for duplicate keys. -/
theorem ParseBM_matches_spec_last_wins (out k : GoStr) :
    kvLookup (ParseBM out) k = specLastKV out k := by
  unfold ParseBM specLastKV
  rw [foldl_parseBM_lookup]
  simp [kvLookup]

/-- `reconcile_hangar_status` from the remote agent script (the `Script`
constant of package remote): bash `"1"`/`"0"` state variables are embedded
as `Bool` (`true` iff the variable holds `"1"`).  The metadata rewrite the
function performs after choosing a status does not feed back into the
status, so the embedding returns the `HANGAR_STATUS` value. -/
def reconcile_hangar_status (metadataFileExists socksExists socksActive
    httpExists httpActive : Bool) : GoStr :=
  if !(socksExists || httpExists) then
    (if metadataFileExists then "drift".toList else "missing".toList)
  else if socksExists && !socksActive then "drift".toList
  else if httpExists && !httpActive then "drift".toList
  else "online".toList

/-- Spec 3 / 8, phrased from the spec's words: missing/drift when no service
exists (by metadata presence), drift when any existing service is inactive,
otherwise online. -/
def specHangarStatus (metadataFileExists socksExists socksActive
    httpExists httpActive : Bool) : GoStr :=
  if !socksExists && !httpExists then
    (if metadataFileExists then "drift".toList else "missing".toList)
  else if (socksExists && !socksActive) || (httpExists && !httpActive) then
    "drift".toList
  else "online".toList

/-- Claim C5: for every remote state, the reconciled hangar status is
`missing`/`drift` when both services are absent (without/with the metadata
file), `drift` when some existing service is not active, and `online`
otherwise. -/
theorem reconcile_hangar_status_spec (metadataFileExists socksExists socksActive
    httpExists httpActive : Bool) :
    reconcile_hangar_status metadataFileExists socksExists socksActive
        httpExists httpActive =
      specHangarStatus metadataFileExists socksExists socksActive
        httpExists httpActive := by
  cases metadataFileExists <;> cases socksExists <;> cases socksActive <;>
    cases httpExists <;> cases httpActive <;> rfl

/-- The replacement string `'"'"'` used by `shellJoin`
(internal/hangar/service.go): quote, double-quote, quote, double-quote,
quote - five characters. -/
def shellEscSeq : GoStr := [squoteChar, dquoteChar, squoteChar, dquoteChar, squoteChar]

/-- `shellJoin` from internal/hangar/service.go: wrap each argument in
single quotes after replacing embedded single quotes with `shellEscSeq`,
then join with single spaces. -/
def shellJoin (parts : List GoStr) : GoStr :=
  List.intercalate (" ".toList)
    (parts.map (fun p =>
      [squoteChar] ++ goReplaceAllChar p squoteChar shellEscSeq ++ [squoteChar]))

/-- The command string built by `runRemote` (internal/hangar/service.go):
`"bash " + remotePath + " " + shellJoin(args)`. -/
def remoteCommand (remotePath : GoStr) (args : List GoStr) : GoStr :=
  "bash ".toList ++ remotePath ++ " ".toList ++ shellJoin args

/-- Spec 6, quoting rule phrased from the spec's words with the replacement
sequence left as a parameter: wrap in single quotes, substituting `r` for
each embedded single quote. -/
def specQuoteWith (r : GoStr) (p : GoStr) : GoStr :=
  [squoteChar] ++ (p.map (fun c => if c = squoteChar then r else [c])).flatten ++
    [squoteChar]

/-- Claim C7 as stated: some four-character sequence serves as the
single-quote replacement in every command the service builds. -/
def shellQuoteClaim : Prop :=
  ∃ r : GoStr, r.length = 4 ∧
    ∀ remotePath args, remoteCommand remotePath args =
      "bash ".toList ++ remotePath ++ " ".toList ++
        List.intercalate (" ".toList) (args.map (specQuoteWith r))

theorem goReplaceAllChar_eq_flatten (p : GoStr) (old : Char) (new : GoStr) :
    goReplaceAllChar p old new =
      (p.map (fun c => if c = old then new else [c])).flatten := by
  induction p with
  | nil => rfl
  | cons c t ih => simp [goReplaceAllChar, ih]

/-- Counterexample for claim C7 as stated: on the single argument `'` the
built command has 14 characters, while any four-character replacement
sequence would give 13 - the real replacement sequence `'"'"'` has five
characters, not four. -/
theorem shellQuoteClaim_false : ¬ shellQuoteClaim := by
  intro hcl
  obtain ⟨r, hlen, hall⟩ := hcl
  have h := hall ("p".toList) [[squoteChar]]
  have hlhs : (remoteCommand ("p".toList) [[squoteChar]]).length = 14 := by decide
  have hrhs :
      ("bash ".toList ++ "p".toList ++ " ".toList ++
        List.intercalate (" ".toList) ([[squoteChar]].map (specQuoteWith r))).length =
      9 + r.length := by
    simp [specQuoteWith, List.intercalate]
    omega
  rw [h] at hlhs
  rw [hrhs] at hlhs
  omega

/-- Claim C7 (amended): the command built for the remote agent wraps each
argument in single quotes, replacing any embedded single quote with the
five-character sequence `'"'"'`, and joins the quoted arguments with single
spaces after `bash <path> `. -/
theorem remoteCommand_quoting (remotePath : GoStr) (args : List GoStr) :
    remoteCommand remotePath args =
      "bash ".toList ++ remotePath ++ " ".toList ++
        List.intercalate (" ".toList) (args.map (specQuoteWith shellEscSeq)) ∧
    shellEscSeq.length = 5 := by
  constructor
  · unfold remoteCommand shellJoin
    have hfun : (fun p => [squoteChar] ++ goReplaceAllChar p squoteChar shellEscSeq ++
        [squoteChar]) = specQuoteWith shellEscSeq := by
      funext p
      unfold specQuoteWith
      rw [goReplaceAllChar_eq_flatten]
    rw [hfun]
  · decide

/-- One record of the known-hosts trust file: a hostname pattern and the
recorded public key (keys are abstracted to identifiers; equality of
identifiers models equality of serialized keys). -/
structure HostKeyRecord where
  host : GoStr
  key : Nat
deriving DecidableEq

/-- `HostKeyError` from internal/tunnel/socks5.go (package sshx): the typed
host-key failure with its reason (`unknown` or `mismatch`). -/
structure HostKeyFailure where
  addr : GoStr
  fingerprint : Nat
  reason : GoStr
deriving DecidableEq

/-- Result of the x/crypto knownhosts lookup as consumed by
`ConnectWithOptions`: no error, a `KeyError` with empty `Want` (host not
recorded), or a `KeyError` with non-empty `Want` (host recorded under
different keys). -/
inductive KhLookup where
  | keyMatches : KhLookup
  | hostUnknown : KhLookup
  | keyMismatch : KhLookup
deriving DecidableEq

/-- The knownhosts check over the trust-file records: unknown when no
record names the host, a match when some record for the host carries the
presented key, a mismatch otherwise. -/
def khCheck (file : List HostKeyRecord) (host : GoStr) (key : Nat) : KhLookup :=
  let recs := file.filter (fun r => r.host == host)
  if recs.isEmpty then .hostUnknown
  else if recs.any (fun r => r.key == key) then .keyMatches
  else .keyMismatch

/-- The host-key callback installed by `ConnectWithOptions`
(internal/tunnel/socks5.go, package sshx) in accept-new or strict mode,
together with `appendKnownHost`: a known matching key is accepted; an
unknown host is appended and accepted under accept-new and refused with
reason `unknown` under strict; a differing key is refused with reason
`mismatch`.  The returned file is the trust file after the connect. -/
def hostKeyCallback (acceptNew : Bool) (file : List HostKeyRecord)
    (host : GoStr) (key : Nat) : Except HostKeyFailure (List HostKeyRecord) :=
  match khCheck file host key with
  | .keyMatches => .ok file
  | .hostUnknown =>
    if acceptNew then .ok (file ++ [⟨host, key⟩])
    else .error ⟨host, key, "unknown".toList⟩
  | .keyMismatch => .error ⟨host, key, "mismatch".toList⟩

/-- Claim C4: in accept-new mode, starting from a trust file with no record
for the hostname, the first connect appends exactly the one new line and
succeeds, a second connect with the same key appends nothing, and a second
connect with a different key fails with reason `mismatch` while writing no
new line. -/
theorem acceptNew_trust_file (file : List HostKeyRecord) (host : GoStr)
    (k k' : Nat) (hfresh : (file.filter (fun r => r.host == host)).isEmpty = true)
    (hne : ¬ k' = k) :
    hostKeyCallback true file host k = .ok (file ++ [⟨host, k⟩]) ∧
    hostKeyCallback true (file ++ [⟨host, k⟩]) host k = .ok (file ++ [⟨host, k⟩]) ∧
    hostKeyCallback true (file ++ [⟨host, k⟩]) host k' =
      .error ⟨host, k', "mismatch".toList⟩ := by
  have hfilter : ∀ key2 : Nat,
      ((file ++ [(⟨host, key2⟩ : HostKeyRecord)]).filter (fun r => r.host == host)) =
        [⟨host, key2⟩] := by
    intro key2
    rw [List.filter_append]
    rw [List.isEmpty_iff] at hfresh
    rw [hfresh]
    simp [List.filter]
  refine ⟨?_, ?_, ?_⟩
  · unfold hostKeyCallback khCheck
    simp only [hfresh, if_true, if_pos]
  · unfold hostKeyCallback khCheck
    simp only [hfilter k]
    simp
  · unfold hostKeyCallback khCheck
    simp only [hfilter k']
    have hany : ([(⟨host, k⟩ : HostKeyRecord)].any (fun r => r.key == k')) = false := by
      simp only [List.any_cons, List.any_nil, Bool.or_false]
      simpa using fun he => hne he.symm
    simp only [hfilter k]
    simp [hany]

/-- Witness for claim C4 at a concrete trust file and keys. -/
theorem acceptNew_trust_file_witness :
    hostKeyCallback true [⟨"other".toList, 7⟩] ("vps".toList) 1 =
      .ok [⟨"other".toList, 7⟩, ⟨"vps".toList, 1⟩] ∧
    hostKeyCallback true [⟨"other".toList, 7⟩, ⟨"vps".toList, 1⟩] ("vps".toList) 1 =
      .ok [⟨"other".toList, 7⟩, ⟨"vps".toList, 1⟩] ∧
    hostKeyCallback true [⟨"other".toList, 7⟩, ⟨"vps".toList, 1⟩] ("vps".toList) 2 =
      .error ⟨"vps".toList, 2, "mismatch".toList⟩ := by
  have h := acceptNew_trust_file [⟨"other".toList, 7⟩] ("vps".toList) 1 2
    (by decide) (by decide)
  exact h

/-- Where a single SOCKS5 connection ends up in `HandleConn`
(internal/tunnel/socks5.go), before any dialling happens.  `connectRequest`
records the parsed CONNECT request (address type, raw address bytes, port)
that would be handed to the dial function; every other constructor is an
error return. -/
inductive SocksOutcome where
  | readFailed : SocksOutcome
  | badVersion : SocksOutcome
  | noAcceptableAuth : SocksOutcome
  | badRequestVersion : SocksOutcome
  | unsupportedCommand : SocksOutcome
  | unsupportedAtyp : SocksOutcome
  | connectRequest (atyp : Nat) (addr : List Nat) (port : Nat) : SocksOutcome
deriving DecidableEq

/-- The observable trace of `HandleConn` on one connection: the bytes
written back to the client, the number of input bytes consumed, and how the
handler left the connection. -/
structure HandleTrace where
  written : List Nat
  consumed : Nat
  outcome : SocksOutcome
deriving DecidableEq

/-- `sendReply` from internal/tunnel/socks5.go with a nil bind address:
`{VER, REP, RSV, ATYP=IPv4, 0, 0, 0, 0, 0, 0}`. -/
def replyFrame (rep : Nat) : List Nat := [5, rep, 0, 1, 0, 0, 0, 0, 0, 0]

/-- The request-parsing phase of `HandleConn` after a successful NO-AUTH
negotiation: 4 header bytes, then the address per `atyp`, then the
big-endian port.  `base` counts the input bytes already consumed. -/
def handleRequestPhase (base : Nat) (r2 : List Nat) : HandleTrace :=
  match r2 with
  | rv :: cmd :: _rsv :: atyp :: r3 =>
    if ¬ rv = 5 then ⟨[5, 0], base + 4, .badRequestVersion⟩
    else if ¬ cmd = 1 then ⟨[5, 0] ++ replyFrame 2, base + 4, .unsupportedCommand⟩
    else if atyp = 1 then
      match r3 with
      | a0 :: a1 :: a2 :: a3 :: p0 :: p1 :: _ =>
        ⟨[5, 0] ++ replyFrame 0, base + 10,
          .connectRequest 1 [a0, a1, a2, a3] (p0 * 256 + p1)⟩
      | _ => ⟨[5, 0], base + 4 + r3.length, .readFailed⟩
    else if atyp = 4 then
      if 18 ≤ r3.length then
        ⟨[5, 0] ++ replyFrame 0, base + 20,
          .connectRequest 4 (r3.take 16)
            ((r3.drop 16).headD 0 * 256 + ((r3.drop 16).drop 1).headD 0)⟩
      else ⟨[5, 0], base + 4 + r3.length, .readFailed⟩
    else if atyp = 3 then
      match r3 with
      | n :: r4 =>
        if n + 2 ≤ r4.length then
          ⟨[5, 0] ++ replyFrame 0, base + 7 + n,
            .connectRequest 3 (r4.take n)
              ((r4.drop n).headD 0 * 256 + ((r4.drop n).drop 1).headD 0)⟩
        else ⟨[5, 0], base + 5 + r4.length, .readFailed⟩
      | [] => ⟨[5, 0], base + 4, .readFailed⟩
    else ⟨[5, 0] ++ replyFrame 1, base + 4, .unsupportedAtyp⟩
  | _ => ⟨[5, 0], base + r2.length, .readFailed⟩

/-- `HandleConn` from internal/tunnel/socks5.go, as a pure function of the
client's byte stream: auth negotiation (version, nmethods, methods; reject
with `{5, 0xFF}` when NO-AUTH is not offered), then the CONNECT request
parse.  The bytes the handler writes and the input it consumes are returned
as a trace; actual dialling and relaying happen beyond the
`connectRequest` outcome and are not part of this claim's scope. -/
def HandleConn (input : List Nat) : HandleTrace :=
  match input with
  | ver :: nm :: rest =>
    if ¬ ver = 5 then ⟨[], 2, .badVersion⟩
    else if rest.length < nm then ⟨[], 2 + rest.length, .readFailed⟩
    else if ¬ (rest.take nm).contains 0 then ⟨[5, 255], 2 + nm, .noAcceptableAuth⟩
    else handleRequestPhase (2 + nm) (rest.drop nm)
  | _ => ⟨[], input.length, .readFailed⟩

/-- Claim C6: a client whose offered method list does not include 0x00
receives exactly the two bytes `{0x05, 0xFF}`, the handler returns with an
error, and nothing past the method list is consumed - the request is never
read. -/
theorem socks5_rejects_without_noauth (nm : Nat) (rest : List Nat)
    (hlen : nm ≤ rest.length) (hnoz : ∀ b ∈ rest.take nm, ¬ b = 0) :
    HandleConn (5 :: nm :: rest) = ⟨[5, 255], 2 + nm, .noAcceptableAuth⟩ := by
  have hnot : ¬ (rest.length < nm) := by omega
  have hcont : ((rest.take nm).contains 0) = false := by
    rw [List.contains_eq_any_beq, List.any_eq_false]
    intro b hb
    simpa using fun he => hnoz b hb he.symm
  simp [HandleConn, hnot, hcont]
  intro hmem
  have hc : (List.take nm rest).contains 0 = true := by
    rw [List.contains_eq_any_beq, List.any_eq_true]
    exact ⟨0, hmem, by simp⟩
  rw [hcont] at hc
  cases hc

/-- Witness for claim C6: a client offering only USER/PASS (method 0x02). -/
theorem socks5_rejects_without_noauth_witness :
    HandleConn [5, 1, 2] = ⟨[5, 255], 3, .noAcceptableAuth⟩ := by
  have h := socks5_rejects_without_noauth 1 [2] (by decide) (by decide)
  exact h

/-- `ProtocolState` from internal/hangar/service.go (the Go field `Exists`
is spelt `svcExists` here). -/
structure ProtocolState where
  svcExists : Bool
  active : Bool
  port : GoStr
  user : GoStr
  pass : GoStr
  mode : GoStr
  managed : Bool
  legacy : Bool
deriving DecidableEq

/-- `Inventory` from internal/hangar/service.go. -/
structure Inventory where
  publicIP : GoStr
  socks5 : ProtocolState
  http : ProtocolState
  hangarStatus : GoStr
  metadataExists : Bool
deriving DecidableEq

/-- `parseInventory` from internal/hangar/service.go: decode the `BM_`
mapping into an `Inventory`; when `BM_HANGAR_STATUS` trims to empty, fall
back to `online`/`missing` depending on whether any service exists. -/
def parseInventory (kv : KeyValues) : Inventory :=
  let status0 := goTrimSpace (kvGet kv ("BM_HANGAR_STATUS".toList))
  let status :=
    if status0.isEmpty then
      (if kvBool kv ("BM_SOCKS_EXISTS".toList) || kvBool kv ("BM_HTTP_EXISTS".toList)
       then "online".toList else "missing".toList)
    else status0
  { publicIP := kvGet kv ("BM_PUBLIC_IP".toList)
    socks5 :=
      { svcExists := kvBool kv ("BM_SOCKS_EXISTS".toList)
        active := kvBool kv ("BM_SOCKS_ACTIVE".toList)
        port := kvGet kv ("BM_SOCKS_PORT".toList)
        user := kvGet kv ("BM_SOCKS_USER".toList)
        pass := kvGet kv ("BM_SOCKS_PASS".toList)
        mode := kvGet kv ("BM_SOCKS_MODE".toList)
        managed := false
        legacy := false }
    http :=
      { svcExists := kvBool kv ("BM_HTTP_EXISTS".toList)
        active := kvBool kv ("BM_HTTP_ACTIVE".toList)
        port := kvGet kv ("BM_HTTP_PORT".toList)
        user := kvGet kv ("BM_HTTP_USER".toList)
        pass := kvGet kv ("BM_HTTP_PASS".toList)
        mode := kvGet kv ("BM_HTTP_MODE".toList)
        managed := kvBool kv ("BM_HTTP_MANAGED".toList)
        legacy := kvBool kv ("BM_HTTP_LEGACY".toList) }
    hangarStatus := status
    metadataExists := kvBool kv ("BM_METADATA_EXISTS".toList) }

theorem kvGet_set_ne (kv : KeyValues) (k v k' : GoStr) (h : ¬ k' = k) :
    kvGet (kvSet kv k v) k' = kvGet kv k' := by
  unfold kvGet
  rw [kvLookup_set_ne kv k v k' h]

/-- Claim C10: when `BM_HANGAR_STATUS` is absent or whitespace-only, the
decoder assigns `online` iff `BM_SOCKS_EXISTS` or `BM_HTTP_EXISTS` is
truthy and `missing` otherwise; it never assigns `drift` in this fallback,
and `BM_METADATA_EXISTS` has no effect on the status. -/
theorem parseInventory_fallback_status (kv : KeyValues)
    (hblank : goTrimSpace (kvGet kv ("BM_HANGAR_STATUS".toList)) = []) :
    (parseInventory kv).hangarStatus =
      (if kvBool kv ("BM_SOCKS_EXISTS".toList) || kvBool kv ("BM_HTTP_EXISTS".toList)
       then "online".toList else "missing".toList) ∧
    ¬ (parseInventory kv).hangarStatus = "drift".toList ∧
    ∀ v, (parseInventory (kvSet kv ("BM_METADATA_EXISTS".toList) v)).hangarStatus =
      (parseInventory kv).hangarStatus := by
  have hmain : ∀ kv' : KeyValues,
      goTrimSpace (kvGet kv' ("BM_HANGAR_STATUS".toList)) = [] →
      (parseInventory kv').hangarStatus =
        (if kvBool kv' ("BM_SOCKS_EXISTS".toList) || kvBool kv' ("BM_HTTP_EXISTS".toList)
         then "online".toList else "missing".toList) := by
    intro kv' hb
    unfold parseInventory
    simp only [hb, List.isEmpty_nil, if_true]
  refine ⟨hmain kv hblank, ?_, ?_⟩
  · rw [hmain kv hblank]
    by_cases hc : (kvBool kv ("BM_SOCKS_EXISTS".toList) ||
        kvBool kv ("BM_HTTP_EXISTS".toList)) = true
    · rw [if_pos hc]; decide
    · rw [if_neg hc]; decide
  · intro v
    have hb2 : goTrimSpace (kvGet (kvSet kv ("BM_METADATA_EXISTS".toList) v)
        ("BM_HANGAR_STATUS".toList)) = [] := by
      rw [kvGet_set_ne kv ("BM_METADATA_EXISTS".toList) v ("BM_HANGAR_STATUS".toList)
        (by decide)]
      exact hblank
    rw [hmain _ hb2, hmain kv hblank]
    have hbool : ∀ k' : GoStr, ¬ k' = "BM_METADATA_EXISTS".toList →
        kvBool (kvSet kv ("BM_METADATA_EXISTS".toList) v) k' = kvBool kv k' := by
      intro k' hk
      unfold kvBool
      rw [kvGet_set_ne kv ("BM_METADATA_EXISTS".toList) v k' hk]
    rw [hbool ("BM_SOCKS_EXISTS".toList) (by decide),
      hbool ("BM_HTTP_EXISTS".toList) (by decide)]

/-- Witness for claim C10 at a concrete mapping lacking `BM_HANGAR_STATUS`. -/
theorem parseInventory_fallback_status_witness :
    (parseInventory [("BM_SOCKS_EXISTS".toList, "1".toList)]).hangarStatus =
      "online".toList ∧
    ¬ (parseInventory [("BM_SOCKS_EXISTS".toList, "1".toList)]).hangarStatus =
      "drift".toList := by
  have h := parseInventory_fallback_status [("BM_SOCKS_EXISTS".toList, "1".toList)]
    (by decide)
  refine ⟨?_, h.2.1⟩
  rw [h.1]
  decide

/-- Go `strings.TrimRight(l, "\r")` as used on each scanned line by
`sanitizeRemoteOutput`: drop every trailing carriage return. -/
def goTrimRightCR (l : GoStr) : GoStr :=
  (l.reverse.dropWhile (fun c => c == '\r')).reverse

/-- The `strings.Builder` contents of `sanitizeRemoteOutput`: each kept
line followed by a newline byte. -/
def joinNL (L : List GoStr) : GoStr := L.foldr (fun l acc => l ++ '\n' :: acc) []

/-- `sanitizeRemoteOutput` from internal/hangar/service.go: scan the
output's lines, trim trailing carriage returns, drop every line whose
trimmed form starts with `BM_`, rejoin the survivors with newlines; an
empty builder yields `""`, anything else is trimmed as a whole. -/
def sanitizeRemoteOutput (out : GoStr) : GoStr :=
  let kept := ((goLines out).map goTrimRightCR).filter
    (fun l => !(goStartsWith ("BM_".toList) (goTrimSpace l)))
  let built := joinNL kept
  if built.isEmpty then [] else goTrimSpace built

/-- The truncation marker `tailString` prepends. -/
def truncMark : GoStr := "[...output truncated...]\n".toList

/-- `tailString` from internal/hangar/service.go: keep strings of at most
`mx` bytes whole (`mx = 0` embeds Go's `max <= 0`); longer strings keep
their last `mx` bytes (at least 80) behind the truncation marker. -/
def tailString (s : GoStr) (mx : Nat) : GoStr :=
  if mx = 0 ∨ s.length ≤ mx then s
  else goTrimSpace (truncMark ++ s.drop (s.length - (if mx < 80 then 80 else mx)))

/-- Rune-wise lexicographic order, matching Go's `sort.Strings` byte order
on the UTF-8 encodings. -/
def lexLeB : GoStr → GoStr → Bool
  | [], _ => true
  | _ :: _, [] => false
  | a :: as, b :: bs =>
    if a.toNat < b.toNat then true
    else if a = b then lexLeB as bs
    else false

/-- The `sort.Strings` order as a decidable relation. -/
def lexLe (a b : GoStr) : Prop := lexLeB a b = true

instance : DecidableRel lexLe :=
  fun a b => inferInstanceAs (Decidable (lexLeB a b = true))

/-- `redactedKeys` from internal/hangar/service.go: every map key except
those whose upper-cased form contains `PASS`, sorted. -/
def redactedKeys (kv : KeyValues) : List GoStr :=
  List.insertionSort lexLe
    ((kv.map Prod.fst).filter (fun k => !(goContains (goToUpper k) ("PASS".toList))))

/-- `hasSuccessMarker` from internal/hangar/service.go. -/
def hasSuccessMarker (mode : GoStr) (kv : KeyValues) : Bool :=
  let m := goToLower (goTrimSpace mode)
  if m = "inventory".toList then
    !(goTrimSpace (kvGet kv ("BM_PUBLIC_IP".toList))).isEmpty
  else if m = "preflight".toList then
    goTrimSpace (kvGet kv ("BM_PREFLIGHT".toList)) == "OK".toList
  else if m = "show".toList ∨ m = "apply".toList ∨ m = "destroy".toList then
    !(goTrimSpace (kvGet kv ("BM_RESULT_PROTOCOL".toList))).isEmpty
  else false

/-- The typed error `runRemote` (internal/hangar/service.go) returns on the
failure path: it names the mode and carries the sanitised tail. -/
structure RemoteRunError where
  mode : GoStr
  tail : GoStr
deriving DecidableEq

/-- The text `runRemote` appends to its failure error: the sanitised
output, with the redacted key list substituted when the sanitised output is
blank, truncated to the last 8192 bytes. -/
def remoteFailureTail (out : GoStr) : GoStr :=
  let sanitized := sanitizeRemoteOutput out
  let sanitized2 :=
    if (goTrimSpace sanitized).isEmpty then
      (if (redactedKeys (ParseBM out)).isEmpty then sanitized
       else "parsed keys: ".toList ++
         List.intercalate (", ".toList) (redactedKeys (ParseBM out)))
    else sanitized
  tailString sanitized2 8192

/-- The post-execution decision of `runRemote`
(internal/hangar/service.go): given the remote's combined output and
whether the run returned an error (non-zero exit), either succeed with the
parsed map or return the typed failure. -/
def runRemoteOutcome (mode out : GoStr) (exitNonZero : Bool) :
    Except RemoteRunError (KeyValues × GoStr) :=
  if exitNonZero && !(hasSuccessMarker mode (ParseBM out)) then
    .error ⟨mode, remoteFailureTail out⟩
  else .ok (ParseBM out, out)

theorem head?_dropWhile_false (p : Char → Bool) (l : GoStr) (c : Char)
    (h : (l.dropWhile p).head? = some c) : p c = false := by
  induction l with
  | nil => cases h
  | cons a t ih =>
    rw [List.dropWhile_cons] at h
    by_cases hp : p a = true
    · rw [if_pos hp] at h
      exact ih h
    · rw [if_neg hp] at h
      cases h
      simpa using hp

theorem goTrimRight_getLast_not_space (s : GoStr) (c : Char)
    (h : (goTrimRight s).getLast? = some c) : goIsSpace c = false := by
  unfold goTrimRight at h
  rw [List.getLast?_reverse] at h
  exact head?_dropWhile_false goIsSpace s.reverse c h

theorem goTrimSpace_getLast_not_space (s : GoStr) (c : Char)
    (h : (goTrimSpace s).getLast? = some c) : goIsSpace c = false :=
  goTrimRight_getLast_not_space (goTrimLeft s) c h

theorem suffix_getLast? {u t : GoStr} (h : u <:+ t) (hne : ¬ u = []) :
    u.getLast? = t.getLast? := by
  obtain ⟨w, rfl⟩ := h
  rw [List.getLast?_append_of_ne_nil w hne]

theorem all_space_of_trimSpace_nil (v : GoStr) (h : goTrimSpace v = []) :
    ∀ c ∈ v, goIsSpace c = true := by
  unfold goTrimSpace goTrimRight at h
  have h1 : (goTrimLeft v).reverse.dropWhile goIsSpace = [] := by
    have := congrArg List.reverse h
    simpa using this
  rw [List.dropWhile_eq_nil_iff] at h1
  have h2 : ∀ c ∈ goTrimLeft v, goIsSpace c = true := by
    intro c hc
    exact h1 c (by simpa using hc)
  intro c hc
  have hsplit : v.takeWhile goIsSpace ++ v.dropWhile goIsSpace = v :=
    List.takeWhile_append_dropWhile goIsSpace v
  rw [← hsplit] at hc
  rcases List.mem_append.mp hc with hc1 | hc2
  · exact List.mem_takeWhile_imp hc1
  · exact h2 c hc2

theorem trimSpace_nil_iff_of_last (v : GoStr)
    (hv : v = [] ∨ ∃ c, v.getLast? = some c ∧ goIsSpace c = false) :
    goTrimSpace v = [] ↔ v = [] := by
  constructor
  · intro h
    rcases hv with hv | ⟨c, hlast, hcsp⟩
    · exact hv
    · have hmem : c ∈ v := List.mem_of_getLast?_eq_some hlast
      have := all_space_of_trimSpace_nil v h c hmem
      rw [this] at hcsp
      cases hcsp
  · intro h
    rw [h]
    rfl

theorem parsed_value_last_not_space (out k v : GoStr)
    (h : kvLookup (ParseBM out) k = some v) (hne : ¬ v = []) :
    ∃ c, v.getLast? = some c ∧ goIsSpace c = false := by
  rw [ParseBM_matches_spec_last_wins] at h
  unfold specLastKV at h
  rw [Option.map_eq_some'] at h
  obtain ⟨p, hlast, hsnd⟩ := h
  have hmemf := List.mem_of_getLast?_eq_some hlast
  have hmem : p ∈ (goLines out).filterMap specLineKV := List.mem_of_mem_filter hmemf
  rw [List.mem_filterMap] at hmem
  obtain ⟨line, _, hline⟩ := hmem
  unfold specLineKV at hline
  by_cases hc : (goStartsWith ("BM_".toList) (goTrimSpace line) &&
      (goTrimSpace line).contains '=') = true
  · rw [if_pos hc] at hline
    have hv2 : v = ((goTrimSpace line).dropWhile (fun c => !(c == '='))).drop 1 := by
      rw [← hsnd, ← Option.some.inj hline]
    have hsuf : v <:+ goTrimSpace line := by
      rw [hv2]
      exact List.IsSuffix.trans (List.drop_suffix 1 _)
        (List.dropWhile_suffix (fun c => !(c == '=')))
    have hlasteq : v.getLast? = (goTrimSpace line).getLast? := suffix_getLast? hsuf hne
    cases hvl : v.getLast? with
    | none =>
      rw [List.getLast?_eq_none_iff] at hvl
      exact absurd hvl hne
    | some c =>
      refine ⟨c, rfl, ?_⟩
      have : (goTrimSpace line).getLast? = some c := by rw [← hlasteq, hvl]
      exact goTrimSpace_getLast_not_space line c this
  · rw [if_neg hc] at hline
    cases hline

theorem parsed_trim_nil_iff (out k : GoStr) :
    goTrimSpace (kvGet (ParseBM out) k) = [] ↔ kvGet (ParseBM out) k = [] := by
  cases h : kvLookup (ParseBM out) k with
  | none =>
    unfold kvGet
    rw [h]
    simp [goTrimSpace, goTrimRight, goTrimLeft]
  | some v =>
    have hget : kvGet (ParseBM out) k = v := by
      unfold kvGet
      rw [h]
      rfl
    rw [hget]
    by_cases hv : v = []
    · rw [hv]; simp [goTrimSpace, goTrimRight, goTrimLeft]
    · exact trimSpace_nil_iff_of_last v (Or.inr (parsed_value_last_not_space out k v h hv))

theorem hasSuccessMarker_inventory (kv : KeyValues) :
    hasSuccessMarker ("inventory".toList) kv =
      !(goTrimSpace (kvGet kv ("BM_PUBLIC_IP".toList))).isEmpty := rfl

theorem hasSuccessMarker_preflight (kv : KeyValues) :
    hasSuccessMarker ("preflight".toList) kv =
      (goTrimSpace (kvGet kv ("BM_PREFLIGHT".toList)) == "OK".toList) := rfl

theorem hasSuccessMarker_show (kv : KeyValues) :
    hasSuccessMarker ("show".toList) kv =
      !(goTrimSpace (kvGet kv ("BM_RESULT_PROTOCOL".toList))).isEmpty := rfl

theorem hasSuccessMarker_apply (kv : KeyValues) :
    hasSuccessMarker ("apply".toList) kv =
      !(goTrimSpace (kvGet kv ("BM_RESULT_PROTOCOL".toList))).isEmpty := rfl

theorem hasSuccessMarker_destroy (kv : KeyValues) :
    hasSuccessMarker ("destroy".toList) kv =
      !(goTrimSpace (kvGet kv ("BM_RESULT_PROTOCOL".toList))).isEmpty := rfl

theorem parsed_nonblank_iff (out k : GoStr) :
    (!(goTrimSpace (kvGet (ParseBM out) k)).isEmpty) = true ↔
      ¬ kvGet (ParseBM out) k = [] := by
  constructor
  · intro hb hnil
    have hz : goTrimSpace (kvGet (ParseBM out) k) = [] :=
      (parsed_trim_nil_iff out k).mpr hnil
    rw [hz] at hb
    simp at hb
  · intro hn
    cases hE : (goTrimSpace (kvGet (ParseBM out) k)).isEmpty with
    | false => simp
    | true =>
      rw [List.isEmpty_iff] at hE
      exact absurd ((parsed_trim_nil_iff out k).mp hE) hn

/-- Claim C3 as stated requires the raw `BM_PREFLIGHT` value to equal `OK`;
the other markers are non-emptiness checks, as in the claim. -/
def specSuccessMarkerLiteral (mode : GoStr) (kv : KeyValues) : Prop :=
  (mode = "inventory".toList ∧ ¬ kvGet kv ("BM_PUBLIC_IP".toList) = []) ∨
  (mode = "preflight".toList ∧ kvGet kv ("BM_PREFLIGHT".toList) = "OK".toList) ∨
  ((mode = "show".toList ∨ mode = "apply".toList ∨ mode = "destroy".toList) ∧
    ¬ kvGet kv ("BM_RESULT_PROTOCOL".toList) = [])

/-- Claim C3 amended: the preflight marker is `BM_PREFLIGHT` equal to `OK`
after trimming surrounding whitespace. -/
def specSuccessMarker (mode : GoStr) (kv : KeyValues) : Prop :=
  (mode = "inventory".toList ∧ ¬ kvGet kv ("BM_PUBLIC_IP".toList) = []) ∨
  (mode = "preflight".toList ∧
    goTrimSpace (kvGet kv ("BM_PREFLIGHT".toList)) = "OK".toList) ∨
  ((mode = "show".toList ∨ mode = "apply".toList ∨ mode = "destroy".toList) ∧
    ¬ kvGet kv ("BM_RESULT_PROTOCOL".toList) = [])

/-- Counterexample for claim C3 as stated: a non-zero exit in preflight mode
with remote output `BM_PREFLIGHT= OK` is treated as successful by the code,
although the parsed value `" OK"` does not equal `"OK"` - the code compares
the trimmed value, the claim the raw one. -/
theorem preflight_marker_literal_counterexample :
    runRemoteOutcome ("preflight".toList) ("BM_PREFLIGHT= OK".toList) true =
      .ok (ParseBM ("BM_PREFLIGHT= OK".toList), "BM_PREFLIGHT= OK".toList) ∧
    ¬ specSuccessMarkerLiteral ("preflight".toList)
      (ParseBM ("BM_PREFLIGHT= OK".toList)) := by
  constructor
  · rfl
  · unfold specSuccessMarkerLiteral
    decide

/-- Claim C3 (amended): for the five agent modes and a parsed key/value
mapping, a run with non-zero exit status is treated as successful exactly
when the mode's marker is present (`BM_PUBLIC_IP` non-empty for inventory,
`BM_PREFLIGHT` trimming to `OK` for preflight, `BM_RESULT_PROTOCOL`
non-empty for show/apply/destroy); otherwise the typed error naming the
mode is returned. -/
theorem runRemote_nonzero_exit_markers (mode out : GoStr)
    (hmode : mode = "inventory".toList ∨ mode = "preflight".toList ∨
      mode = "show".toList ∨ mode = "apply".toList ∨ mode = "destroy".toList) :
    (runRemoteOutcome mode out true = .ok (ParseBM out, out) ↔
      specSuccessMarker mode (ParseBM out)) ∧
    (¬ specSuccessMarker mode (ParseBM out) →
      runRemoteOutcome mode out true = .error ⟨mode, remoteFailureTail out⟩) := by
  have hiff : hasSuccessMarker mode (ParseBM out) = true ↔
      specSuccessMarker mode (ParseBM out) := by
    unfold specSuccessMarker
    rcases hmode with h | h | h | h | h <;> subst h
    · rw [hasSuccessMarker_inventory, parsed_nonblank_iff]
      constructor
      · intro hx
        exact Or.inl ⟨rfl, hx⟩
      · rintro (⟨_, hx⟩ | ⟨hm, _⟩ | ⟨hm, _⟩)
        · exact hx
        · exact absurd hm (by decide)
        · rcases hm with h1 | h1 | h1 <;> exact absurd h1 (by decide)
    · rw [hasSuccessMarker_preflight]
      constructor
      · intro hx
        exact Or.inr (Or.inl ⟨rfl, by simpa using hx⟩)
      · rintro (⟨hm, _⟩ | ⟨_, hx⟩ | ⟨hm, _⟩)
        · exact absurd hm (by decide)
        · simpa using hx
        · rcases hm with h1 | h1 | h1 <;> exact absurd h1 (by decide)
    · rw [hasSuccessMarker_show, parsed_nonblank_iff]
      constructor
      · intro hx
        exact Or.inr (Or.inr ⟨Or.inl rfl, hx⟩)
      · rintro (⟨hm, _⟩ | ⟨hm, _⟩ | ⟨_, hx⟩)
        · exact absurd hm (by decide)
        · exact absurd hm (by decide)
        · exact hx
    · rw [hasSuccessMarker_apply, parsed_nonblank_iff]
      constructor
      · intro hx
        exact Or.inr (Or.inr ⟨Or.inr (Or.inl rfl), hx⟩)
      · rintro (⟨hm, _⟩ | ⟨hm, _⟩ | ⟨_, hx⟩)
        · exact absurd hm (by decide)
        · exact absurd hm (by decide)
        · exact hx
    · rw [hasSuccessMarker_destroy, parsed_nonblank_iff]
      constructor
      · intro hx
        exact Or.inr (Or.inr ⟨Or.inr (Or.inr rfl), hx⟩)
      · rintro (⟨hm, _⟩ | ⟨hm, _⟩ | ⟨_, hx⟩)
        · exact absurd hm (by decide)
        · exact absurd hm (by decide)
        · exact hx
  constructor
  · constructor
    · intro hok
      cases hb : hasSuccessMarker mode (ParseBM out) with
      | true => exact hiff.mp hb
      | false =>
        unfold runRemoteOutcome at hok
        rw [hb] at hok
        simp at hok
    · intro hs
      have hb : hasSuccessMarker mode (ParseBM out) = true := hiff.mpr hs
      unfold runRemoteOutcome
      rw [hb]
      rfl
  · intro hns
    have hb : hasSuccessMarker mode (ParseBM out) = false := by
      cases hb2 : hasSuccessMarker mode (ParseBM out) with
      | true => exact absurd (hiff.mp hb2) hns
      | false => rfl
    unfold runRemoteOutcome
    rw [hb]
    rfl

/-- Witness for claim C3 at preflight mode with output `BM_PREFLIGHT=OK`. -/
theorem runRemote_nonzero_exit_markers_witness :
    runRemoteOutcome ("preflight".toList) ("BM_PREFLIGHT=OK".toList) true =
      .ok (ParseBM ("BM_PREFLIGHT=OK".toList), "BM_PREFLIGHT=OK".toList) := by
  have h := runRemote_nonzero_exit_markers ("preflight".toList)
    ("BM_PREFLIGHT=OK".toList) (Or.inr (Or.inl rfl))
  exact h.1.mpr (Or.inr (Or.inl ⟨rfl, by decide⟩))

/-- A single digit's value, per Go `strconv.Atoi`. -/
def digitVal (c : Char) : Option Nat :=
  if 48 ≤ c.toNat ∧ c.toNat ≤ 57 then some (c.toNat - 48) else none

/-- The value of an all-digit string; `none` when empty or when any
character is not a decimal digit. -/
def digitsVal (s : GoStr) : Option Nat :=
  if s.isEmpty then none
  else
    s.foldl (fun acc c =>
      match acc, digitVal c with
      | some n, some d => some (n * 10 + d)
      | _, _ => none) (some 0)

/-- Go `strconv.Atoi`: optional sign followed by digits (overflow of the
64-bit range is not modelled; the stores only parse ports and minutes). -/
def goAtoi (s : GoStr) : Option Int :=
  match s with
  | '-' :: t => (digitsVal t).map (fun n => -(n : Int))
  | '+' :: t => (digitsVal t).map (fun n => (n : Int))
  | _ => (digitsVal s).map (fun n => (n : Int))

/-- `parseIntDefault` from the ships store: `Atoi` of the trimmed string,
falling back to the default on a parse error or a non-positive value. -/
def parseIntDefault (raw : GoStr) (d : Int) : Int :=
  match goAtoi (goTrimSpace raw) with
  | none => d
  | some v => if v ≤ 0 then d else v

/-- `defaultIfEmpty` from the ships store. -/
def defaultIfEmpty (v d : GoStr) : GoStr :=
  if (goTrimSpace v).isEmpty then d else v

/-- Modelled from the spec: the `Ship` record of the current ships store
(the store version carrying the smart-blinder fields is present in this
repository only through its tests; the store file itself is not among the
sources, so the record follows spec sections 3 and 4.2). -/
structure Ship where
  name : GoStr
  host : GoStr
  sshPort : Int
  sshUser : GoStr
  protocol : GoStr
  httpMode : GoStr
  proxyPort : Int
  noFirewallChange : Bool
  listenLocal : Bool
  smartBlinder : Bool
  smartBlinderIdleMinutes : Int
deriving DecidableEq

/-- The `KEY=value` scan shared by every version of `Store.Load`: trim each
line, skip blanks and `#` comments, split at the first `=`, ignore lines
without one; later lines overwrite earlier ones. -/
def scanShipVals (content : GoStr) : KeyValues :=
  (goLines content).foldl (fun vals line =>
    let l := goTrimSpace line
    if l.isEmpty || goStartsWith ("#".toList) l then vals
    else if l.contains '=' then
      kvSet vals (l.takeWhile (fun c => !(c == '=')))
        ((l.dropWhile (fun c => !(c == '='))).drop 1)
    else vals) []

/-- A `0|1`-style boolean with a default for a missing/blank value, used by
the modelled loader for `SMART_BLINDER`. -/
def parseBoolDefault (raw : GoStr) (d : Bool) : Bool :=
  if (goTrimSpace raw).isEmpty then d
  else raw == "1".toList || goToLower (goTrimSpace raw) == "true".toList

/-- Modelled from the spec: `Store.Load` of the current ships store, whose
source file is not among the sources here (only its tests are).  Per spec
sections 4.2 and 6 it scans `KEY=value` lines ignoring blanks and `#`
comments, fills defaults (`ssh_port=22`, `ssh_user=root`, `protocol=http`,
`proxy_port=18181`, `smart_blinder=true`,
`smart_blinder_idle_minutes=10`), ignores unknown keys, and fails when
`HOST` is empty.  The file is passed as its content; opening the file by
name is outside the embedding. -/
def LoadShip (name content : GoStr) : Except GoStr Ship :=
  let vals := scanShipVals content
  let ship : Ship :=
    { name := name
      host := kvGet vals ("HOST".toList)
      sshPort := parseIntDefault (kvGet vals ("SSH_PORT".toList)) 22
      sshUser := defaultIfEmpty (kvGet vals ("SSH_USER".toList)) ("root".toList)
      protocol :=
        if (kvGet vals ("PROTOCOL".toList)).isEmpty then "http".toList
        else kvGet vals ("PROTOCOL".toList)
      httpMode := kvGet vals ("HTTP_MODE".toList)
      proxyPort := parseIntDefault (kvGet vals ("PROXY_PORT".toList)) 18181
      noFirewallChange :=
        kvGet vals ("NO_FIREWALL_CHANGE".toList) == "1".toList ||
          goToLower (kvGet vals ("NO_FIREWALL_CHANGE".toList)) == "true".toList
      listenLocal :=
        kvGet vals ("LISTEN_LOCAL".toList) == "1".toList ||
          goToLower (kvGet vals ("LISTEN_LOCAL".toList)) == "true".toList
      smartBlinder := parseBoolDefault (kvGet vals ("SMART_BLINDER".toList)) true
      smartBlinderIdleMinutes :=
        parseIntDefault (kvGet vals ("SMART_BLINDER_IDLE_MINUTES".toList)) 10 }
  if (goTrimSpace ship.host).isEmpty then Except.error ("missing HOST".toList)
  else Except.ok ship

/-- Claim C8: a ship file with a non-empty `HOST` and none of the newer
keys loads successfully and fills the defaults `protocol=http`,
`ssh_port=22`, `proxy_port=18181`, `smart_blinder=true`,
`smart_blinder_idle_minutes=10`, with unknown keys, blank lines and `#`
comments ignored (the content is otherwise arbitrary). -/
theorem LoadShip_defaults (name content : GoStr)
    (hHost : ¬ (goTrimSpace (kvGet (scanShipVals content) ("HOST".toList))).isEmpty = true)
    (hP : kvLookup (scanShipVals content) ("PROTOCOL".toList) = none)
    (hSP : kvLookup (scanShipVals content) ("SSH_PORT".toList) = none)
    (hPP : kvLookup (scanShipVals content) ("PROXY_PORT".toList) = none)
    (hSB : kvLookup (scanShipVals content) ("SMART_BLINDER".toList) = none)
    (hSBIM : kvLookup (scanShipVals content) ("SMART_BLINDER_IDLE_MINUTES".toList) = none) :
    ∃ ship, LoadShip name content = Except.ok ship ∧
      ship.protocol = "http".toList ∧ ship.sshPort = 22 ∧
      ship.proxyPort = 18181 ∧ ship.smartBlinder = true ∧
      ship.smartBlinderIdleMinutes = 10 ∧
      ship.host = kvGet (scanShipVals content) ("HOST".toList) := by
  have hgP : kvGet (scanShipVals content) ("PROTOCOL".toList) = [] := by
    unfold kvGet; rw [hP]; rfl
  have hgSP : kvGet (scanShipVals content) ("SSH_PORT".toList) = [] := by
    unfold kvGet; rw [hSP]; rfl
  have hgPP : kvGet (scanShipVals content) ("PROXY_PORT".toList) = [] := by
    unfold kvGet; rw [hPP]; rfl
  have hgSB : kvGet (scanShipVals content) ("SMART_BLINDER".toList) = [] := by
    unfold kvGet; rw [hSB]; rfl
  have hgSBIM : kvGet (scanShipVals content) ("SMART_BLINDER_IDLE_MINUTES".toList) = [] := by
    unfold kvGet; rw [hSBIM]; rfl
  refine ⟨⟨name, kvGet (scanShipVals content) ("HOST".toList), 22,
      defaultIfEmpty (kvGet (scanShipVals content) ("SSH_USER".toList)) ("root".toList),
      "http".toList, kvGet (scanShipVals content) ("HTTP_MODE".toList), 18181,
      kvGet (scanShipVals content) ("NO_FIREWALL_CHANGE".toList) == "1".toList ||
        goToLower (kvGet (scanShipVals content) ("NO_FIREWALL_CHANGE".toList)) == "true".toList,
      kvGet (scanShipVals content) ("LISTEN_LOCAL".toList) == "1".toList ||
        goToLower (kvGet (scanShipVals content) ("LISTEN_LOCAL".toList)) == "true".toList,
      true, 10⟩, ?_, rfl, rfl, rfl, rfl, rfl, rfl⟩
  unfold LoadShip
  rw [if_neg hHost]
  simp only [hgP, hgSP, hgPP, hgSB, hgSBIM]
  rfl

/-- Witness for claim C8: a legacy file with comments, blanks and an
unknown key. -/
theorem LoadShip_defaults_witness :
    ∃ ship, LoadShip ("legacy".toList)
        ("# ship\n\nHOST=203.0.113.10\nSSH_USER=root\nJUNK=9\n".toList) =
        Except.ok ship ∧
      ship.protocol = "http".toList ∧ ship.sshPort = 22 ∧
      ship.proxyPort = 18181 ∧ ship.smartBlinder = true ∧
      ship.smartBlinderIdleMinutes = 10 ∧
      ship.host = kvGet (scanShipVals
        ("# ship\n\nHOST=203.0.113.10\nSSH_USER=root\nJUNK=9\n".toList))
        ("HOST".toList) := by
  exact LoadShip_defaults ("legacy".toList)
    ("# ship\n\nHOST=203.0.113.10\nSSH_USER=root\nJUNK=9\n".toList)
    (by decide) (by decide) (by decide) (by decide) (by decide) (by decide)

/-- The character filter of `SanitizeName` (ships store): ASCII lower-case
letters, digits, dot, underscore and dash; Go rune comparisons are
codepoint comparisons, written here over `Char.toNat`. -/
def allowedNameChar (c : Char) : Bool :=
  (decide (97 ≤ c.toNat) && decide (c.toNat ≤ 122)) ||
  (decide (48 ≤ c.toNat) && decide (c.toNat ≤ 57)) ||
  c.toNat == 46 || c.toNat == 95 || c.toNat == 45

/-- The builder loop of `SanitizeName` with its `lastDash` state: allowed
runes are copied with dash runs collapsed, all other runes are substituted
by a single dash. -/
def sanitizeLoop : Bool → GoStr → GoStr
  | _, [] => []
  | lastDash, c :: t =>
    if allowedNameChar c then
      if c = '-' then
        (if lastDash then sanitizeLoop true t else '-' :: sanitizeLoop true t)
      else c :: sanitizeLoop false t
    else
      (if lastDash then sanitizeLoop true t else '-' :: sanitizeLoop true t)

/-- The right half of Go `strings.Trim(s, "-")`, by structural recursion:
drop every trailing dash. -/
def dropTrailingDashes : GoStr → GoStr
  | [] => []
  | c :: t =>
    match dropTrailingDashes t with
    | [] => if c = '-' then [] else [c]
    | r => c :: r

/-- Go `strings.Trim(s, "-")`: drop leading and trailing dashes. -/
def goTrimDashes (s : GoStr) : GoStr :=
  dropTrailingDashes (s.dropWhile (fun c => c == '-'))

/-- `SanitizeName` from the ships store: lower-case the trimmed input, turn
spaces into dashes, run the builder loop, then trim dashes at both ends. -/
def SanitizeName (raw : GoStr) : GoStr :=
  goTrimDashes (sanitizeLoop false
    (goReplaceAllChar (goToLower (goTrimSpace raw)) ' ' ['-']))

/-- No two adjacent dashes. -/
def noDDB : GoStr → Bool
  | a :: b :: t => !(a == '-' && b == '-') && noDDB (b :: t)
  | _ => true

theorem noDDB_cons (a : Char) (l : GoStr) :
    noDDB (a :: l) = true ↔ noDDB l = true ∧ ¬ (a = '-' ∧ l.head? = some '-') := by
  cases l with
  | nil =>
    simp only [noDDB, List.head?_nil]
    constructor
    · intro _
      exact ⟨trivial, by rintro ⟨_, h⟩; cases h⟩
    · intro _
      trivial
  | cons b t =>
    simp only [noDDB, List.head?_cons, Bool.and_eq_true, Bool.not_eq_true']
    constructor
    · rintro ⟨hab, ht⟩
      refine ⟨ht, ?_⟩
      rintro ⟨ha, hb⟩
      cases hb
      subst ha
      simp at hab
    · rintro ⟨ht, hnot⟩
      refine ⟨?_, ht⟩
      cases hab : (a == '-' && b == '-') with
      | false => rfl
      | true =>
        exfalso
        rw [Bool.and_eq_true, beq_iff_eq, beq_iff_eq] at hab
        exact hnot ⟨hab.1, by rw [hab.2]⟩

theorem allowed_not_space (c : Char) (h : allowedNameChar c = true) :
    goIsSpace c = false := by
  cases hsp : goIsSpace c with
  | false => rfl
  | true =>
    exfalso
    simp only [allowedNameChar, Bool.or_eq_true, Bool.and_eq_true, decide_eq_true_eq,
      beq_iff_eq] at h
    simp only [goIsSpace, Bool.or_eq_true, Bool.and_eq_true, decide_eq_true_eq,
      beq_iff_eq] at hsp
    omega

theorem sanitizeLoop_all (s : GoStr) : ∀ (b : Bool),
    ∀ c ∈ sanitizeLoop b s, allowedNameChar c = true := by
  induction s with
  | nil =>
    intro b c hc
    cases hc
  | cons a t ih =>
    intro b c hc
    unfold sanitizeLoop at hc
    by_cases ha : allowedNameChar a = true
    · rw [if_pos ha] at hc
      by_cases had : a = '-'
      · rw [if_pos had] at hc
        cases b with
        | true =>
          simp only [if_true] at hc
          exact ih true c hc
        | false =>
          simp only [Bool.false_eq_true, if_false] at hc
          rcases List.mem_cons.mp hc with h1 | h1
          · subst h1; decide
          · exact ih true c h1
      · rw [if_neg had] at hc
        rcases List.mem_cons.mp hc with h1 | h1
        · subst h1; exact ha
        · exact ih false c h1
    · rw [if_neg ha] at hc
      cases b with
      | true =>
        simp only [if_true] at hc
        exact ih true c hc
      | false =>
        simp only [Bool.false_eq_true, if_false] at hc
        rcases List.mem_cons.mp hc with h1 | h1
        · subst h1; decide
        · exact ih true c h1

theorem sanitizeLoop_noDD (s : GoStr) : ∀ (b : Bool),
    noDDB (sanitizeLoop b s) = true ∧
      (b = true → ¬ (sanitizeLoop b s).head? = some '-') := by
  induction s with
  | nil =>
    intro b
    exact ⟨rfl, fun _ h => by cases h⟩
  | cons a t ih =>
    intro b
    unfold sanitizeLoop
    by_cases ha : allowedNameChar a = true
    · rw [if_pos ha]
      by_cases had : a = '-'
      · rw [if_pos had]
        cases b with
        | true =>
          simp only [if_true]
          exact ⟨(ih true).1, fun _ => (ih true).2 rfl⟩
        | false =>
          simp only [Bool.false_eq_true, if_false]
          constructor
          · rw [noDDB_cons]
            exact ⟨(ih true).1, fun hx => (ih true).2 rfl hx.2⟩
          · intro hb
            cases hb
      · rw [if_neg had]
        constructor
        · rw [noDDB_cons]
          exact ⟨(ih false).1, fun hx => had hx.1⟩
        · intro _ hh
          rw [List.head?_cons, Option.some.injEq] at hh
          exact had hh
    · rw [if_neg ha]
      cases b with
      | true =>
        simp only [if_true]
        exact ⟨(ih true).1, fun _ => (ih true).2 rfl⟩
      | false =>
        simp only [Bool.false_eq_true, if_false]
        constructor
        · rw [noDDB_cons]
          exact ⟨(ih true).1, fun hx => (ih true).2 rfl hx.2⟩
        · intro hb
          cases hb

theorem getLast?_cons_ne_nil {α : Type} (c : α) (r : List α) (h : ¬ r = []) :
    (c :: r).getLast? = r.getLast? := by
  rw [getLast?_cons_or]
  cases hr : r.getLast? with
  | none =>
    rw [List.getLast?_eq_none_iff] at hr
    exact absurd hr h
  | some x => rfl

theorem noDDB_append_right (u v : GoStr) (h : noDDB (u ++ v) = true) :
    noDDB v = true := by
  induction u with
  | nil => exact h
  | cons a u' ih =>
    rw [List.cons_append, noDDB_cons] at h
    exact ih h.1

theorem noDDB_append_left (u v : GoStr) (h : noDDB (u ++ v) = true) :
    noDDB u = true := by
  induction u with
  | nil => rfl
  | cons a u' ih =>
    rw [List.cons_append, noDDB_cons] at h
    rw [noDDB_cons]
    refine ⟨ih h.1, ?_⟩
    rintro ⟨ha, hh⟩
    apply h.2
    refine ⟨ha, ?_⟩
    cases u' with
    | nil => cases hh
    | cons b t =>
      rw [List.head?_cons, Option.some.injEq] at hh
      rw [List.cons_append, List.head?_cons]
      rw [hh]

theorem dropTrailingDashes_prefixOf (t : GoStr) : dropTrailingDashes t <+: t := by
  induction t with
  | nil => exact List.prefix_refl []
  | cons c t ih =>
    unfold dropTrailingDashes
    cases hr : dropTrailingDashes t with
    | nil =>
      by_cases hc : c = '-'
      · rw [if_pos hc]
        exact List.nil_prefix
      · rw [if_neg hc]
        exact List.cons_prefix_cons.mpr ⟨rfl, List.nil_prefix⟩
    | cons b r' =>
      exact List.cons_prefix_cons.mpr ⟨rfl, hr ▸ ih⟩

theorem dropTrailingDashes_getLast (t : GoStr) (c : Char)
    (h : (dropTrailingDashes t).getLast? = some c) : ¬ c = '-' := by
  induction t with
  | nil => cases h
  | cons a t ih =>
    unfold dropTrailingDashes at h
    cases hr : dropTrailingDashes t with
    | nil =>
      rw [hr] at h
      by_cases ha : a = '-'
      · rw [if_pos ha] at h
        cases h
      · rw [if_neg ha] at h
        simp only [List.getLast?_singleton, Option.some.injEq] at h
        rw [← h]
        exact ha
    | cons b r' =>
      rw [hr] at h
      rw [getLast?_cons_ne_nil a (b :: r') (by simp)] at h
      rw [← hr] at h
      exact ih h

theorem dropTrailingDashes_head (t : GoStr) (c : Char)
    (h : (dropTrailingDashes t).head? = some c) : t.head? = some c := by
  cases t with
  | nil => cases h
  | cons a t' =>
    unfold dropTrailingDashes at h
    cases hr : dropTrailingDashes t' with
    | nil =>
      rw [hr] at h
      by_cases ha : a = '-'
      · rw [if_pos ha] at h
        cases h
      · rw [if_neg ha] at h
        exact h
    | cons b r' =>
      rw [hr] at h
      exact h

theorem dropWhile_head_not (p : Char → Bool) (l : GoStr)
    (h : ∀ c, l.head? = some c → p c = false) : l.dropWhile p = l := by
  cases l with
  | nil => rfl
  | cons a t =>
    rw [List.dropWhile_cons, if_neg]
    rw [h a rfl]
    simp

theorem map_fix (f : Char → Char) (l : GoStr) (h : ∀ c ∈ l, f c = c) :
    l.map f = l := by
  induction l with
  | nil => rfl
  | cons a t ih =>
    rw [List.map_cons, h a (List.mem_cons_self a t),
      ih (fun c hc => h c (List.mem_cons_of_mem a hc))]

theorem replace_fix (l : GoStr) (old : Char) (new : GoStr)
    (h : ∀ c ∈ l, ¬ c = old) : goReplaceAllChar l old new = l := by
  induction l with
  | nil => rfl
  | cons a t ih =>
    unfold goReplaceAllChar
    rw [if_neg (h a (List.mem_cons_self a t)),
      ih (fun c hc => h c (List.mem_cons_of_mem a hc))]
    rfl

theorem sanitizeLoop_fix (l : GoStr) (hall : ∀ c ∈ l, allowedNameChar c = true)
    (hdd : noDDB l = true) :
    sanitizeLoop false l = l ∧
      (¬ l.head? = some '-' → sanitizeLoop true l = l) := by
  induction l with
  | nil => exact ⟨rfl, fun _ => rfl⟩
  | cons a t ih =>
    have ha := hall a (List.mem_cons_self a t)
    have hallt : ∀ c ∈ t, allowedNameChar c = true :=
      fun c hc => hall c (List.mem_cons_of_mem a hc)
    rw [noDDB_cons] at hdd
    have iht := ih hallt hdd.1
    constructor
    · unfold sanitizeLoop
      rw [if_pos ha]
      by_cases had : a = '-'
      · rw [if_pos had]
        simp only [Bool.false_eq_true, if_false]
        rw [iht.2 (fun hh => hdd.2 ⟨had, hh⟩), had]
      · rw [if_neg had, iht.1]
    · intro hh
      have had : ¬ a = '-' := by
        intro ha'
        exact hh (by rw [List.head?_cons, ha'])
      unfold sanitizeLoop
      rw [if_pos ha, if_neg had, iht.1]

theorem dropTrailingDashes_fix (t : GoStr)
    (h : ∀ c, t.getLast? = some c → ¬ c = '-') : dropTrailingDashes t = t := by
  induction t with
  | nil => rfl
  | cons a t' ih =>
    cases ht : t' with
    | nil =>
      subst ht
      unfold dropTrailingDashes
      simp only [dropTrailingDashes]
      rw [if_neg (h a rfl)]
    | cons b r =>
      have ht2 : ¬ t' = [] := by rw [ht]; simp
      have hlast : t'.getLast? = (a :: t').getLast? :=
        (getLast?_cons_ne_nil a t' ht2).symm
      have hdt : dropTrailingDashes t' = t' := by
        apply ih
        intro c hc
        exact h c (by rw [← hlast]; exact hc)
      rw [← ht]
      unfold dropTrailingDashes
      rw [hdt, ht]

theorem head?_mem {l : GoStr} {c : Char} (h : l.head? = some c) : c ∈ l := by
  cases l with
  | nil => cases h
  | cons a t =>
    rw [List.head?_cons, Option.some.injEq] at h
    rw [← h]
    exact List.mem_cons_self a t

theorem goToLowerChar_fix (c : Char) (h : allowedNameChar c = true) :
    goToLowerChar c = c := by
  unfold goToLowerChar
  rw [if_neg]
  simp only [allowedNameChar, Bool.or_eq_true, Bool.and_eq_true, decide_eq_true_eq,
    beq_iff_eq] at h
  omega

theorem allowed_not_blank (c : Char) (h : allowedNameChar c = true) : ¬ c = ' ' := by
  intro hc
  subst hc
  exact absurd h (by decide)

theorem goTrimSpace_fix (y : GoStr) (hall : ∀ c ∈ y, allowedNameChar c = true) :
    goTrimSpace y = y := by
  unfold goTrimSpace goTrimLeft goTrimRight
  have h1 : y.dropWhile goIsSpace = y := by
    apply dropWhile_head_not
    intro c hc
    exact allowed_not_space c (hall c (head?_mem hc))
  have h2 : y.reverse.dropWhile goIsSpace = y.reverse := by
    apply dropWhile_head_not
    intro c hc
    rw [List.head?_reverse] at hc
    exact allowed_not_space c (hall c (List.mem_of_getLast?_eq_some hc))
  rw [h1, h2, List.reverse_reverse]

theorem goTrimDashes_fix (y : GoStr) (hhead : ¬ y.head? = some '-')
    (hlast : ∀ c, y.getLast? = some c → ¬ c = '-') : goTrimDashes y = y := by
  unfold goTrimDashes
  have h1 : y.dropWhile (fun c => c == '-') = y := by
    apply dropWhile_head_not
    intro c hc
    cases hbc : (c == '-') with
    | false => rfl
    | true =>
      exfalso
      rw [beq_iff_eq] at hbc
      subst hbc
      exact hhead hc
  rw [h1]
  exact dropTrailingDashes_fix y hlast

theorem trimDashes_shape (z : GoStr) (hallz : ∀ c ∈ z, allowedNameChar c = true)
    (hddz : noDDB z = true) :
    (∀ c ∈ goTrimDashes z, allowedNameChar c = true) ∧
    noDDB (goTrimDashes z) = true ∧
    ¬ (goTrimDashes z).head? = some '-' ∧
    (∀ c, (goTrimDashes z).getLast? = some c → ¬ c = '-') := by
  unfold goTrimDashes
  have hsuf : z.dropWhile (fun c => c == '-') <:+ z := List.dropWhile_suffix _
  have hpre : dropTrailingDashes (z.dropWhile (fun c => c == '-')) <+:
      z.dropWhile (fun c => c == '-') := dropTrailingDashes_prefixOf _
  refine ⟨?_, ?_, ?_, ?_⟩
  · intro c hc
    exact hallz c (hsuf.subset (hpre.subset hc))
  · obtain ⟨u, hu⟩ := hsuf
    obtain ⟨w, hw⟩ := hpre
    have hdd1 : noDDB (z.dropWhile (fun c => c == '-')) = true := by
      apply noDDB_append_right u
      rw [hu]
      exact hddz
    apply noDDB_append_left _ w
    rw [hw]
    exact hdd1
  · intro hh
    have hh2 := dropTrailingDashes_head _ '-' hh
    have hh3 := head?_dropWhile_false (fun c => c == '-') z '-' hh2
    simp at hh3
  · exact fun c hc => dropTrailingDashes_getLast _ c hc

/-- Claim C9: ship-name sanitisation is idempotent -
`SanitizeName (SanitizeName x) = SanitizeName x` for every string. -/
theorem SanitizeName_idempotent (x : GoStr) :
    SanitizeName (SanitizeName x) = SanitizeName x := by
  have hloopall := sanitizeLoop_all
    (goReplaceAllChar (goToLower (goTrimSpace x)) ' ' ['-']) false
  have hloopdd := (sanitizeLoop_noDD
    (goReplaceAllChar (goToLower (goTrimSpace x)) ' ' ['-']) false).1
  obtain ⟨hall, hdd, hhead, hlast⟩ := trimDashes_shape _ hloopall hloopdd
  have hall' : ∀ c ∈ SanitizeName x, allowedNameChar c = true := hall
  have hdd' : noDDB (SanitizeName x) = true := hdd
  have hhead' : ¬ (SanitizeName x).head? = some '-' := hhead
  have hlast' : ∀ c, (SanitizeName x).getLast? = some c → ¬ c = '-' := hlast
  have hTS : goTrimSpace (SanitizeName x) = SanitizeName x := goTrimSpace_fix _ hall'
  have hTL : goToLower (SanitizeName x) = SanitizeName x :=
    map_fix _ _ (fun c hc => goToLowerChar_fix c (hall' c hc))
  have hRP : goReplaceAllChar (SanitizeName x) ' ' ['-'] = SanitizeName x :=
    replace_fix _ _ _ (fun c hc => allowed_not_blank c (hall' c hc))
  have hSL : sanitizeLoop false (SanitizeName x) = SanitizeName x :=
    (sanitizeLoop_fix _ hall' hdd').1
  have hTD : goTrimDashes (SanitizeName x) = SanitizeName x :=
    goTrimDashes_fix _ hhead' hlast'
  calc SanitizeName (SanitizeName x)
      = goTrimDashes (sanitizeLoop false (goReplaceAllChar
          (goToLower (goTrimSpace (SanitizeName x))) ' ' ['-'])) := rfl
    _ = SanitizeName x := by rw [hTS, hTL, hRP, hSL, hTD]

theorem char_eq_of_toNat_eq {a b : Char} (h : a.toNat = b.toNat) : a = b := by
  unfold Char.toNat at h
  apply Char.ext
  exact UInt32.toNat.inj h

theorem lexLeB_total (a b : GoStr) : lexLeB a b = true ∨ lexLeB b a = true := by
  induction a generalizing b with
  | nil => exact Or.inl rfl
  | cons x as ih =>
    cases b with
    | nil => exact Or.inr rfl
    | cons y bs =>
      unfold lexLeB
      by_cases hxy : x.toNat < y.toNat
      · left
        rw [if_pos hxy]
      · by_cases hyx : y.toNat < x.toNat
        · right
          rw [if_pos hyx]
        · have hx : x = y := char_eq_of_toNat_eq (by omega)
          subst hx
          rcases ih bs with h | h
          · left
            rw [if_neg hxy, if_pos rfl]
            exact h
          · right
            rw [if_neg hxy, if_pos rfl]
            exact h

theorem lexLeB_trans (a b c : GoStr) (hab : lexLeB a b = true)
    (hbc : lexLeB b c = true) : lexLeB a c = true := by
  induction a generalizing b c with
  | nil => rfl
  | cons x as ih =>
    cases b with
    | nil => cases hab
    | cons y bs =>
      cases c with
      | nil => cases hbc
      | cons z cs =>
        unfold lexLeB at hab hbc ⊢
        by_cases hxy : x.toNat < y.toNat
        · by_cases hyz : y.toNat < z.toNat
          · rw [if_pos (by omega)]
          · rw [if_neg hyz] at hbc
            by_cases hyz2 : y = z
            · subst hyz2
              rw [if_pos hxy]
            · rw [if_neg hyz2] at hbc
              cases hbc
        · by_cases hxy2 : x = y
          · subst hxy2
            rw [if_neg hxy, if_pos rfl] at hab
            by_cases hyz : x.toNat < z.toNat
            · rw [if_pos hyz]
            · by_cases hyz2 : x = z
              · subst hyz2
                rw [if_neg hyz, if_pos rfl] at hbc
                rw [if_neg hyz, if_pos rfl]
                exact ih bs cs hab hbc
              · rw [if_neg hyz, if_neg hyz2] at hbc
                cases hbc
          · rw [if_neg hxy, if_neg hxy2] at hab
            cases hab

instance : IsTotal GoStr lexLe := ⟨lexLeB_total⟩

instance : IsTrans GoStr lexLe := ⟨lexLeB_trans⟩

theorem goStartsWith_map (f : Char → Char) (p s : GoStr)
    (h : goStartsWith p s = true) : goStartsWith (p.map f) (s.map f) = true := by
  induction p generalizing s with
  | nil => rfl
  | cons a ps ih =>
    cases s with
    | nil => cases h
    | cons c cs =>
      unfold goStartsWith at h
      rw [Bool.and_eq_true, beq_iff_eq] at h
      rw [List.map_cons, List.map_cons]
      unfold goStartsWith
      rw [Bool.and_eq_true, beq_iff_eq]
      exact ⟨by rw [h.1], ih cs h.2⟩

theorem goContains_map (f : Char → Char) (s sub : GoStr)
    (h : goContains s sub = true) : goContains (s.map f) (sub.map f) = true := by
  induction s with
  | nil =>
    unfold goContains at h ⊢
    rw [List.isEmpty_iff] at h
    rw [h]
    rfl
  | cons c t ih =>
    unfold goContains at h
    rw [Bool.or_eq_true] at h
    rw [List.map_cons]
    unfold goContains
    rw [Bool.or_eq_true]
    rcases h with h | h
    · left
      have := goStartsWith_map f sub (c :: t) h
      rw [List.map_cons] at this
      exact this
    · right
      exact ih h

theorem redactedKeys_omits_pass (kv : KeyValues) (k : GoStr)
    (h : goContains k ("PASS".toList) = true) : ¬ k ∈ redactedKeys kv := by
  intro hmem
  unfold redactedKeys at hmem
  rw [List.mem_insertionSort] at hmem
  have hfk := List.of_mem_filter hmem
  have hup : goContains (goToUpper k) ("PASS".toList) = true := by
    have := goContains_map goToUpperChar k ("PASS".toList) h
    have hpass : ("PASS".toList).map goToUpperChar = "PASS".toList := by decide
    rw [hpass] at this
    exact this
  rw [hup] at hfk
  cases hfk

theorem redactedKeys_sorted (kv : KeyValues) :
    List.Sorted lexLe (redactedKeys kv) :=
  List.sorted_insertionSort lexLe _

theorem tailString_keeps_suffix (s : GoStr) :
    ∃ kept, kept <:+ s ∧ kept.length ≤ 8192 ∧
      (tailString s 8192 = kept ∨
       tailString s 8192 = goTrimSpace (truncMark ++ kept)) := by
  by_cases h : s.length ≤ 8192
  · refine ⟨s, List.suffix_refl s, h, Or.inl ?_⟩
    unfold tailString
    rw [if_pos (Or.inr h)]
  · refine ⟨s.drop (s.length - 8192), List.drop_suffix _ _, ?_, Or.inr ?_⟩
    · rw [List.length_drop]
      omega
    · unfold tailString
      rw [if_neg (by push_neg; exact ⟨by omega, by omega⟩), if_neg (by decide)]

theorem splitNL_no_newline (s : GoStr) : ∀ l ∈ splitNL s, ¬ '\n' ∈ l := by
  induction s with
  | nil =>
    intro l hl
    cases hl
  | cons c t ih =>
    intro l hl
    unfold splitNL at hl
    by_cases hc : c = '\n'
    · rw [if_pos hc] at hl
      rcases List.mem_cons.mp hl with h1 | h1
      · subst h1
        intro hm
        cases hm
      · exact ih l h1
    · rw [if_neg hc] at hl
      cases hs : splitNL t with
      | nil =>
        rw [hs] at hl
        rcases List.mem_cons.mp hl with h1 | h1
        · subst h1
          intro hm
          rw [List.mem_singleton] at hm
          exact hc hm.symm
        · cases h1
      | cons m ms =>
        rw [hs] at hl
        rcases List.mem_cons.mp hl with h1 | h1
        · subst h1
          intro hm
          rcases List.mem_cons.mp hm with h2 | h2
          · exact hc h2.symm
          · exact ih m (by rw [hs]; exact List.mem_cons_self m ms) h2
        · exact ih l (by rw [hs]; exact List.mem_cons_of_mem m h1)

theorem splitNL_line_append (l r : GoStr) (hl : ¬ '\n' ∈ l) :
    splitNL (l ++ '\n' :: r) = l :: splitNL r := by
  induction l with
  | nil =>
    rw [List.nil_append]
    simp only [splitNL, if_true]
  | cons c t ih =>
    have hc : ¬ c = '\n' := fun h => hl (by rw [h]; exact List.mem_cons_self _ _)
    have ht : ¬ '\n' ∈ t := fun h => hl (List.mem_cons_of_mem c h)
    rw [List.cons_append]
    simp only [splitNL]
    rw [if_neg hc, ih ht]

theorem splitNL_single (t : GoStr) (hnl : ¬ '\n' ∈ t) (hne : ¬ t = []) :
    splitNL t = [t] := by
  induction t with
  | nil => exact absurd rfl hne
  | cons c r ih =>
    have hc : ¬ c = '\n' := fun h => hnl (by rw [h]; exact List.mem_cons_self _ _)
    have hr : ¬ '\n' ∈ r := fun h => hnl (List.mem_cons_of_mem c h)
    unfold splitNL
    rw [if_neg hc]
    by_cases hre : r = []
    · subst hre
      rfl
    · rw [ih hr hre]

theorem joinNL_cons (l : GoStr) (ls : List GoStr) :
    joinNL (l :: ls) = l ++ '\n' :: joinNL ls := rfl

theorem joinNL_append (A B : List GoStr) :
    joinNL (A ++ B) = joinNL A ++ joinNL B := by
  induction A with
  | nil => rfl
  | cons l ls ih =>
    rw [List.cons_append, joinNL_cons, joinNL_cons, ih, List.append_assoc]
    rfl

theorem splitNL_joinNL_append (M : List GoStr) (r : GoStr)
    (hM : ∀ l ∈ M, ¬ '\n' ∈ l) :
    splitNL (joinNL M ++ r) = M ++ splitNL r := by
  induction M with
  | nil => rfl
  | cons l ls ih =>
    have hstep : joinNL (l :: ls) ++ r = l ++ '\n' :: (joinNL ls ++ r) := by
      rw [joinNL_cons, List.append_assoc]
      rfl
    rw [hstep, splitNL_line_append l _ (hM l (List.mem_cons_self l ls)),
      ih (fun m hm => hM m (List.mem_cons_of_mem l hm))]
    rfl

theorem reverse_dropWhile_prefixOf (p : Char → Bool) (w : GoStr) :
    (w.reverse.dropWhile p).reverse <+: w := by
  obtain ⟨u, hu⟩ := List.dropWhile_suffix (l := w.reverse) p
  refine ⟨u.reverse, ?_⟩
  have hrev := congrArg List.reverse hu
  rw [List.reverse_append, List.reverse_reverse] at hrev
  exact hrev

theorem goTrimRight_prefixOf (w : GoStr) : goTrimRight w <+: w :=
  reverse_dropWhile_prefixOf goIsSpace w

theorem goTrimRightCR_prefixOf (w : GoStr) :
    goTrimRightCR w <+: w :=
  reverse_dropWhile_prefixOf (fun c => c == '\r') w

theorem goTrimRight_append (a b : GoStr) :
    goTrimRight (a ++ b) =
      if (goTrimRight b).isEmpty then goTrimRight a else a ++ goTrimRight b := by
  unfold goTrimRight
  rw [List.reverse_append, List.dropWhile_append]
  by_cases hb : (b.reverse.dropWhile goIsSpace).isEmpty = true
  · rw [if_pos hb]
    have hb2 : ((b.reverse.dropWhile goIsSpace).reverse).isEmpty = true := by
      rw [List.isEmpty_iff] at hb ⊢
      rw [hb]
      rfl
    rw [if_pos hb2]
  · rw [if_neg hb]
    have hb2 : ¬ ((b.reverse.dropWhile goIsSpace).reverse).isEmpty = true := by
      intro hcon
      apply hb
      rw [List.isEmpty_iff] at hcon ⊢
      have := congrArg List.reverse hcon
      simpa using this
    rw [if_neg hb2, List.reverse_append, List.reverse_reverse]

theorem goTrimRight_append_space (x : GoStr) (c : Char) (hc : goIsSpace c = true) :
    goTrimRight (x ++ [c]) = goTrimRight x := by
  unfold goTrimRight
  have hrev : (x ++ [c]).reverse = c :: x.reverse := by simp
  rw [hrev, List.dropWhile_cons, if_pos hc]

theorem goTrimLeft_idem (s : GoStr) : goTrimLeft (goTrimLeft s) = goTrimLeft s := by
  apply dropWhile_head_not
  intro c hc
  exact head?_dropWhile_false goIsSpace s c hc

theorem goStartsWith_append (p w q : GoStr) (h : goStartsWith p w = true) :
    goStartsWith p (w ++ q) = true := by
  induction p generalizing w with
  | nil => rfl
  | cons a ps ih =>
    cases w with
    | nil => cases h
    | cons c cs =>
      unfold goStartsWith at h
      rw [Bool.and_eq_true] at h
      rw [List.cons_append]
      unfold goStartsWith
      rw [Bool.and_eq_true]
      exact ⟨h.1, ih cs h.2⟩

theorem goStartsWith_self (p : GoStr) : goStartsWith p p = true := by
  induction p with
  | nil => rfl
  | cons a ps ih =>
    unfold goStartsWith
    rw [Bool.and_eq_true]
    exact ⟨by simp, ih⟩

theorem goStartsWith_eq_append (p w : GoStr) (h : goStartsWith p w = true) :
    ∃ r, w = p ++ r := by
  induction p generalizing w with
  | nil => exact ⟨w, rfl⟩
  | cons a ps ih =>
    cases w with
    | nil => cases h
    | cons c cs =>
      unfold goStartsWith at h
      rw [Bool.and_eq_true, beq_iff_eq] at h
      obtain ⟨r, hr⟩ := ih cs h.2
      exact ⟨r, by rw [List.cons_append, ← hr, h.1]⟩

theorem goStartsWith_mono (p y x : GoStr) (hpre : y <+: x)
    (h : goStartsWith p y = true) : goStartsWith p x = true := by
  obtain ⟨q, rfl⟩ := hpre
  exact goStartsWith_append p y q h

theorem trimLeft_prefix_bm (y x : GoStr) (hpre : y <+: x)
    (h : goStartsWith ("BM_".toList) (goTrimLeft y) = true) :
    goStartsWith ("BM_".toList) (goTrimLeft x) = true := by
  obtain ⟨q, rfl⟩ := hpre
  unfold goTrimLeft at h ⊢
  rw [List.dropWhile_append]
  have hne : ¬ (y.dropWhile goIsSpace).isEmpty = true := by
    intro hcon
    rw [List.isEmpty_iff] at hcon
    rw [hcon] at h
    cases h
  rw [if_neg hne]
  exact goStartsWith_append _ _ q h

theorem bm_trimSpace_iff_trimLeft (l : GoStr) :
    goStartsWith ("BM_".toList) (goTrimSpace l) =
      goStartsWith ("BM_".toList) (goTrimLeft l) := by
  unfold goTrimSpace
  generalize goTrimLeft l = w
  cases hsw : goStartsWith ("BM_".toList) w with
  | false =>
    cases hsw2 : goStartsWith ("BM_".toList) (goTrimRight w) with
    | false => rfl
    | true =>
      rw [← hsw]
      exact (goStartsWith_mono _ _ _ (goTrimRight_prefixOf w) hsw2).symm
  | true =>
    obtain ⟨r, rfl⟩ := goStartsWith_eq_append _ _ hsw
    rw [goTrimRight_append]
    by_cases hr : (goTrimRight r).isEmpty = true
    · rw [if_pos hr]
      have : goTrimRight ("BM_".toList) = "BM_".toList := by decide
      rw [this, goStartsWith_self]
    · rw [if_neg hr]
      rw [goStartsWith_append _ _ _ (goStartsWith_self _)]

theorem dropCR_id (l : GoStr) (h : ¬ l.getLast? = some '\r') : dropCR l = l := by
  unfold dropCR
  rw [if_neg h]

theorem goTrimRightCR_getLast (w : GoStr) (c : Char)
    (h : (goTrimRightCR w).getLast? = some c) : ¬ c = '\r' := by
  unfold goTrimRightCR at h
  rw [List.getLast?_reverse] at h
  have := head?_dropWhile_false (fun x => x == '\r') w.reverse c h
  simpa using this

theorem goTrimRight_getLast_not_cr (w : GoStr) :
    ¬ (goTrimRight w).getLast? = some '\r' := by
  intro hcon
  have := goTrimRight_getLast_not_space w '\r' hcon
  rw [show goIsSpace '\r' = true from by decide] at this
  cases this

/-- A line is BM-free: after dropping leading whitespace it does not start
with `BM_`.  This is what claim C1 asserts of every line of the sanitised
output. -/
def safeLine (l : GoStr) : Prop :=
  ¬ goStartsWith ("BM_".toList) (goTrimLeft l) = true

/-- The invariant of the lines the sanitiser keeps: no embedded newline, no
trailing carriage return, and BM-free. -/
def goodLine (l : GoStr) : Prop :=
  ¬ '\n' ∈ l ∧ ¬ l.getLast? = some '\r' ∧ safeLine l

theorem goodLine_trimLeft (l : GoStr) (h : goodLine l)
    (hne : ¬ goTrimLeft l = []) : goodLine (goTrimLeft l) := by
  obtain ⟨hnl, hcr, hsafe⟩ := h
  refine ⟨?_, ?_, ?_⟩
  · intro hmem
    exact hnl ((List.dropWhile_suffix goIsSpace).subset hmem)
  · intro hlast
    apply hcr
    rw [← suffix_getLast? (List.dropWhile_suffix goIsSpace) hne]
    exact hlast
  · intro hbm
    apply hsafe
    rw [goTrimLeft_idem l] at hbm
    exact hbm

theorem goodLine_trimRight (l : GoStr) (h : goodLine l) :
    goodLine (goTrimRight l) := by
  obtain ⟨hnl, hcr, hsafe⟩ := h
  refine ⟨?_, goTrimRight_getLast_not_cr l, ?_⟩
  · intro hmem
    exact hnl ((goTrimRight_prefixOf l).subset hmem)
  · intro hbm
    exact hsafe (trimLeft_prefix_bm _ _ (goTrimRight_prefixOf l) hbm)

theorem trimLeft_joinNL (L : List GoStr) (hL : ∀ l ∈ L, goodLine l) :
    ∃ M, goTrimLeft (joinNL L) = joinNL M ∧ ∀ l ∈ M, goodLine l := by
  induction L with
  | nil =>
    refine ⟨[], rfl, ?_⟩
    intro l hl
    cases hl
  | cons l ls ih =>
    have hgl := hL l (List.mem_cons_self l ls)
    have hls : ∀ m ∈ ls, goodLine m := fun m hm => hL m (List.mem_cons_of_mem l hm)
    rw [joinNL_cons]
    unfold goTrimLeft
    rw [List.dropWhile_append]
    by_cases he : (l.dropWhile goIsSpace).isEmpty = true
    · rw [if_pos he, List.dropWhile_cons, if_pos (by decide)]
      exact ih hls
    · rw [if_neg he]
      refine ⟨goTrimLeft l :: ls, rfl, ?_⟩
      intro m hm
      rcases List.mem_cons.mp hm with h1 | h1
      · subst h1
        apply goodLine_trimLeft l hgl
        intro hcon
        rw [List.isEmpty_iff] at he
        exact he hcon
      · exact hls m h1

theorem trimRight_joinNL (L : List GoStr) :
    (∀ l ∈ L, goodLine l) →
    (goTrimRight (joinNL L) = [] ∨
      ∃ M t, goTrimRight (joinNL L) = joinNL M ++ t ∧ (∀ l ∈ M, goodLine l) ∧
        goodLine t ∧ ¬ t = []) := by
  induction L using List.reverseRecOn with
  | nil =>
    intro _
    left
    rfl
  | append_singleton ls l ih =>
    intro hL
    have hgl : goodLine l := hL l (by simp)
    have hls : ∀ m ∈ ls, goodLine m := fun m hm => hL m (by simp [hm])
    rw [joinNL_append]
    have hjl : joinNL [l] = l ++ ['\n'] := rfl
    rw [hjl, ← List.append_assoc,
      goTrimRight_append_space _ '\n' (by decide), goTrimRight_append]
    by_cases he : (goTrimRight l).isEmpty = true
    · rw [if_pos he]
      exact ih hls
    · rw [if_neg he]
      right
      refine ⟨ls, goTrimRight l, rfl, hls, goodLine_trimRight l hgl, ?_⟩
      intro hcon
      rw [List.isEmpty_iff] at he
      exact he hcon

theorem kept_lines_good (out : GoStr) :
    ∀ l ∈ ((goLines out).map goTrimRightCR).filter
      (fun l => !(goStartsWith ("BM_".toList) (goTrimSpace l))), goodLine l := by
  intro l hl
  have hfl := List.of_mem_filter hl
  have hml := List.mem_of_mem_filter hl
  rw [List.mem_map] at hml
  obtain ⟨l0, hl0, rfl⟩ := hml
  unfold goLines at hl0
  rw [List.mem_map] at hl0
  obtain ⟨l1, hl1, rfl⟩ := hl0
  refine ⟨?_, ?_, ?_⟩
  · intro hmem
    apply splitNL_no_newline out l1 hl1
    have h1 : '\n' ∈ dropCR l1 := (goTrimRightCR_prefixOf (dropCR l1)).subset hmem
    unfold dropCR at h1
    by_cases hc : l1.getLast? = some '\r'
    · rw [if_pos hc] at h1
      exact List.dropLast_subset l1 h1
    · rw [if_neg hc] at h1
      exact h1
  · intro hlast
    exact goTrimRightCR_getLast _ '\r' hlast rfl
  · intro hbm
    rw [← bm_trimSpace_iff_trimLeft] at hbm
    rw [hbm] at hfl
    cases hfl

theorem sanitize_lines_safe (out : GoStr) :
    ∀ l ∈ goLines (sanitizeRemoteOutput out), safeLine l := by
  intro l hl
  simp only [sanitizeRemoteOutput] at hl
  by_cases hempty : (joinNL (((goLines out).map goTrimRightCR).filter
      (fun l => !(goStartsWith ("BM_".toList) (goTrimSpace l))))).isEmpty = true
  · rw [if_pos hempty] at hl
    cases hl
  · rw [if_neg hempty] at hl
    obtain ⟨M, hM, hMg⟩ := trimLeft_joinNL
      (((goLines out).map goTrimRightCR).filter
        (fun l => !(goStartsWith ("BM_".toList) (goTrimSpace l))))
      (kept_lines_good out)
    have hTS : goTrimSpace (joinNL (((goLines out).map goTrimRightCR).filter
        (fun l => !(goStartsWith ("BM_".toList) (goTrimSpace l))))) =
        goTrimRight (joinNL M) := by
      show goTrimRight (goTrimLeft (joinNL (((goLines out).map goTrimRightCR).filter
        (fun l => !(goStartsWith ("BM_".toList) (goTrimSpace l)))))) = goTrimRight (joinNL M)
      rw [hM]
    rw [hTS] at hl
    rcases trimRight_joinNL M hMg with hzero | ⟨M', t, hMt, hM'g, htg, htne⟩
    · rw [hzero] at hl
      cases hl
    · rw [hMt] at hl
      unfold goLines at hl
      rw [splitNL_joinNL_append M' t (fun m hm => (hM'g m hm).1),
        splitNL_single t htg.1 htne, List.mem_map] at hl
      obtain ⟨m, hm, rfl⟩ := hl
      rcases List.mem_append.mp hm with h1 | h1
      · have hg := hM'g m h1
        rw [dropCR_id m hg.2.1]
        exact hg.2.2
      · rw [List.mem_singleton] at h1
        rw [h1, dropCR_id t htg.2.1]
        exact htg.2.2

/-- Claim C1: on the error path the sanitised remote output contains no
line that, after trimming leading whitespace, begins with `BM_`; the
sanitised output is truncated to at most its last 8192 bytes (behind the
truncation marker when cut); and when the sanitised output is empty the
substituted key list is sorted and omits every key containing `PASS`. -/
theorem sanitizeRemoteOutput_safe (out : GoStr) :
    (∀ l ∈ goLines (sanitizeRemoteOutput out),
      ¬ goStartsWith ("BM_".toList) (goTrimLeft l) = true) ∧
    (∃ kept, kept <:+ sanitizeRemoteOutput out ∧ kept.length ≤ 8192 ∧
      (tailString (sanitizeRemoteOutput out) 8192 = kept ∨
       tailString (sanitizeRemoteOutput out) 8192 =
         goTrimSpace (truncMark ++ kept))) ∧
    (sanitizeRemoteOutput out = [] →
      List.Sorted lexLe (redactedKeys (ParseBM out)) ∧
      ∀ k, goContains k ("PASS".toList) = true →
        ¬ k ∈ redactedKeys (ParseBM out)) := by
  refine ⟨sanitize_lines_safe out, tailString_keeps_suffix _, ?_⟩
  intro _
  exact ⟨redactedKeys_sorted _, fun k hk => redactedKeys_omits_pass _ k hk⟩

/-- Witness for claim C1: a concrete mixed output and a concrete all-`BM_`
output. -/
theorem sanitizeRemoteOutput_safe_witness :
    (¬ goStartsWith ("BM_".toList) (goTrimLeft ("boom".toList)) = true) ∧
    ¬ ("BM_PASS".toList) ∈ redactedKeys (ParseBM ("BM_PASS=x".toList)) := by
  constructor
  · exact (sanitizeRemoteOutput_safe ("boom\nBM_RESULT_PASS=s".toList)).1
      ("boom".toList) (by decide)
  · exact ((sanitizeRemoteOutput_safe ("BM_PASS=x".toList)).2.2 (by decide)).2
      ("BM_PASS".toList) (by decide)
